import Mathlib

/-!
# Four-digit seven-segment display firmware (`src/main.cpp`)

A shallow embedding of the firmware: the pin writes of the bit-serial
shift-register protocol become a trace of events, the interrupt routine and
the reset branch of the main loop become functions on an explicit state, and
machine integers are `Nat`/`Int` with the truncations of the C++ types written
out.
-/

namespace SevenSeg

/-! ## Output trace -/

/-- One observable action of the firmware: an assignment to one of the three
`DigitalOut` pins, or a call of `ThisThread::sleep_for` (in milliseconds). -/
inductive Event where
  | latchPin (v : Nat)
  | clockPin (v : Nat)
  | dataPin (v : Nat)
  | sleep_for (ms : Nat)
  deriving DecidableEq, Repr

/-! ## Machine arithmetic -/

/-- Bitwise complement of a (non-negative) 32-bit `int`, as its unsigned
32-bit two's-complement image: `~x`. -/
def intNot (x : Nat) : Nat := 4294967295 - x % 4294967296

/-- Conversion `static_cast<uint8_t>` of a 32-bit image. -/
def toUint8 (x : Nat) : Nat := x % 256

/-- Two's-complement wrap of a mathematical integer into 32-bit `int`. -/
def wrapInt32 (x : Int) : Int := (x + 2147483648) % 4294967296 - 2147483648

/-! ## Constants (`main.cpp` lines 23-38) -/

/-- Segment patterns for digits 0-9 (common anode, active-low). -/
def segmentPatterns : List Nat :=
  [ toUint8 (intNot 0x3F),
    toUint8 (intNot 0x06),
    toUint8 (intNot 0x5B),
    toUint8 (intNot 0x4F),
    toUint8 (intNot 0x66),
    toUint8 (intNot 0x6D),
    toUint8 (intNot 0x7D),
    toUint8 (intNot 0x07),
    toUint8 (intNot 0x7F),
    toUint8 (intNot 0x6F) ]

/-- Digit select positions for multiplexing (left to right). -/
def digitSelect : List Nat := [0x01, 0x02, 0x04, 0x08]

/-- Read of a C array at an `int` index: defined only inside the array. -/
def arrayAt (arr : List α) (i : Int) : Option α :=
  if 0 ≤ i then arr.get? i.toNat else none

/-! ## Shift register communication (`main.cpp` lines 73-87) -/

/-- The `for (bitIndex = 7; bitIndex >= 0; --bitIndex)` loop of `shiftOutByte`
with `n` iterations left, i.e. starting at `bitIndex = n - 1`. -/
def shiftOutLoop (value : Nat) : Nat → List Event
  | 0 => []
  | n + 1 =>
    [ Event.dataPin (if value &&& (1 <<< n) ≠ 0 then 1 else 0),
      Event.clockPin 1,
      Event.clockPin 0 ] ++ shiftOutLoop value n

/-- Shift out a byte (MSB first) to the shift register. -/
def shiftOutByte (value : Nat) : List Event := shiftOutLoop value 8

/-- Write segments and digit position to the shift register. -/
def updateShiftRegister (segments digit : Nat) : List Event :=
  [Event.latchPin 0] ++ shiftOutByte segments ++ shiftOutByte digit ++ [Event.latchPin 1]

/-! ## Seven-segment display output (`main.cpp` lines 92-111) -/

/-- The initialiser of the local array `individualDigits`; `/` and `%` of C++
truncate toward zero. -/
def individualDigits (number : Int) : List Int :=
  [ (number.tdiv 1000).tmod 10,
    (number.tdiv 100).tmod 10,
    (number.tdiv 10).tmod 10,
    number.tmod 10 ]

/-- Lines 102-106: the segment byte for position `digitIndex`. The table is
read at the digit; when `showDecimal && digitIndex == decimalPos` the byte is
and-ed with `~0x80` (an `int`) and stored back into the `uint8_t`. -/
def digitSegments (digits : List Int) (showDecimal : Bool) (decimalPos : Int)
    (digitIndex : Nat) : Option Nat := do
  let digit ← digits.get? digitIndex
  let segments ← arrayAt segmentPatterns digit
  if showDecimal && ((digitIndex : Int) == decimalPos) then
    pure (toUint8 (segments &&& intNot 0x80))
  else
    pure segments

/-- One iteration of the loop of `displayFourDigitNumber` (lines 102-109). -/
def displayDigit (digits : List Int) (showDecimal : Bool) (decimalPos : Int)
    (digitIndex : Nat) : Option (List Event) := do
  let segments ← digitSegments digits showDecimal decimalPos digitIndex
  let digit ← digitSelect.get? digitIndex
  pure (updateShiftRegister segments digit ++ [Event.sleep_for 2])

/-- The loop `for (digitIndex = 0; digitIndex < 4; ++digitIndex)` with
`remaining` iterations left, the next one at `digitIndex`. -/
def displayLoop (digits : List Int) (showDecimal : Bool) (decimalPos : Int) :
    (remaining : Nat) → (digitIndex : Nat) → Option (List Event)
  | 0, _ => some []
  | remaining + 1, digitIndex => do
    let step ← displayDigit digits showDecimal decimalPos digitIndex
    let rest ← displayLoop digits showDecimal decimalPos remaining (digitIndex + 1)
    pure (step ++ rest)

/-- Display a 4-digit number with optional decimal point. The result is `none`
when an array is read outside its bounds. -/
def displayFourDigitNumber (number : Int) (showDecimal : Bool) (decimalPos : Int) :
    Option (List Event) :=
  displayLoop (individualDigits number) showDecimal decimalPos 4 0

/-! ## Timekeeping (`main.cpp` lines 43-48, 61-67, 124-128) -/

/-- The global variables. The two `float` voltages are kept as rationals. -/
structure State where
  currentSeconds : Int
  currentMinutes : Int
  minimumVoltage : ℚ
  maximumVoltage : ℚ
  deriving DecidableEq

/-- The initialisers of the global variables. -/
def initialState : State :=
  { currentSeconds := 0, currentMinutes := 0, minimumVoltage := 33 / 10, maximumVoltage := 0 }

/-- Interrupt service routine of the 1 s ticker. -/
def incrementTime (st : State) : State :=
  let seconds := wrapInt32 (st.currentSeconds + 1)
  if seconds ≥ 60 then
    { st with
      currentSeconds := 0
      currentMinutes := (wrapInt32 (st.currentMinutes + 1)).tmod 100 }
  else
    { st with currentSeconds := seconds }

/-- The assignments of the reset branch of the main loop (lines 125-126). -/
def mainReset (st : State) : State :=
  { st with currentSeconds := 0, currentMinutes := 0 }

/-- The routine `incrementTime` run `n` times in a row. -/
def ticks : Nat → State → State
  | 0, st => st
  | n + 1, st => incrementTime (ticks n st)

/-- The two transitions that write the time counters. -/
inductive TimeStep where
  | tick
  | reset
  deriving DecidableEq, Repr

/-- Effect of one transition on the state. -/
def applyStep (st : State) : TimeStep → State
  | TimeStep.tick => incrementTime st
  | TimeStep.reset => mainReset st

/-- Effect of a finite sequence of transitions, first to last. -/
def runSteps (st : State) (steps : List TimeStep) : State :=
  steps.foldl applyStep st

/-! ## Reading a trace -/

/-- Bit `k` of a word, as 0 or 1. -/
def wordBit (w k : Nat) : Nat := w / 2 ^ k % 2

/-- The three pin writes that clock one bit out: data, clock high, clock low. -/
def clockedBit (b : Nat) : List Event :=
  [Event.dataPin b, Event.clockPin 1, Event.clockPin 0]

/-- The bits `n-1, ..., 0` of `w`, each clocked out, most significant first. -/
def clockedBits (w : Nat) : Nat → List Event
  | 0 => []
  | n + 1 => clockedBit (wordBit w n) ++ clockedBits w n

/-- Number of clock pulses in a trace: a write of 1 to the clock pin directly
followed by a write of 0 to it. -/
def clockPulses : List Event → Nat
  | Event.clockPin 1 :: Event.clockPin 0 :: rest => clockPulses rest + 1
  | _ :: rest => clockPulses rest
  | [] => 0

/-- The writes to the latch pin, in order. -/
def latchWrites : List Event → List Nat
  | [] => []
  | Event.latchPin v :: rest => v :: latchWrites rest
  | _ :: rest => latchWrites rest

/-- Whether the latch pin, currently at level `latch`, is at 0 at every write
to the clock pin in the trace. -/
def latchLowAtClock (latch : Nat) : List Event → Bool
  | [] => true
  | Event.latchPin v :: rest => latchLowAtClock v rest
  | Event.clockPin _ :: rest => latch == 0 && latchLowAtClock latch rest
  | _ :: rest => latchLowAtClock latch rest

/-- Total time slept in a trace, in milliseconds. -/
def totalSleep : List Event → Nat
  | [] => 0
  | Event.sleep_for ms :: rest => ms + totalSleep rest
  | _ :: rest => totalSleep rest

/-- One bus write followed by the dwell. -/
def writeAndDwell (segments digit : Nat) : List Event :=
  updateShiftRegister segments digit ++ [Event.sleep_for 2]

/-- The trace of one refresh that writes the four segment bytes `segs`, left
to right: each byte goes out with the select mask of its position and is
followed by the dwell. -/
def frameTrace (segs : List Nat) : List Event :=
  writeAndDwell (segs.getD 0 0) 0x01 ++ writeAndDwell (segs.getD 1 0) 0x02
    ++ writeAndDwell (segs.getD 2 0) 0x04 ++ writeAndDwell (segs.getD 3 0) 0x08

/-! ## The seven-segment glyphs, as documented -/

/-- The seven segments; segment `a` is bit 0 of a pattern, `g` is bit 6. -/
inductive Segment where
  | a | b | c | d | e | f | g
  deriving DecidableEq, Repr

/-- Bit position of a segment in a pattern byte. -/
def Segment.bit : Segment → Nat
  | .a => 0 | .b => 1 | .c => 2 | .d => 3 | .e => 4 | .f => 5 | .g => 6

/-- The standard seven-segment glyph of each decimal digit: the segments lit. -/
def standardGlyph : Nat → List Segment
  | 0 => [.a, .b, .c, .d, .e, .f]
  | 1 => [.b, .c]
  | 2 => [.a, .b, .d, .e, .g]
  | 3 => [.a, .b, .c, .d, .g]
  | 4 => [.b, .c, .f, .g]
  | 5 => [.a, .c, .d, .f, .g]
  | 6 => [.a, .c, .d, .e, .f, .g]
  | 7 => [.a, .b, .c]
  | 8 => [.a, .b, .c, .d, .e, .f, .g]
  | 9 => [.a, .b, .c, .d, .f, .g]
  | _ => []

/-! ## The main loop (`main.cpp` lines 130-146) -/

/-- Line 144: the `int` passed to the display in time mode, with both counters
read from the same state. -/
def timeValue (st : State) : Int :=
  wrapInt32 (wrapInt32 (st.currentMinutes * 100) + st.currentSeconds)

/-- Line 141: the call of the voltage branch, `displayFourDigitNumber(scaledVoltage, true, 1)`. -/
def displayVoltage (scaledVoltage : Int) : Option (List Event) :=
  displayFourDigitNumber scaledVoltage true 1

/-- Lines 134-135 of the main loop: the running minimum and maximum take in
one voltage sample. -/
def mainVoltageUpdate (st : State) (voltage : ℚ) : State :=
  let st1 := if voltage < st.minimumVoltage then { st with minimumVoltage := voltage } else st
  if voltage > st1.maximumVoltage then { st1 with maximumVoltage := voltage } else st1

/-- The update of lines 134-135 applied to each sample in turn. -/
def observeAll (st : State) (samples : List ℚ) : State :=
  samples.foldl mainVoltageUpdate st

/-! ## Reading a pattern under a bit assignment -/

/-- Bit position of a segment as the interface description documents it: bit 7
is the decimal point, then segments a, b, c, d, e, f, g from bit 6 down to
bit 0. -/
def Segment.documentedBit : Segment → Nat
  | .a => 6 | .b => 5 | .c => 4 | .d => 3 | .e => 2 | .f => 1 | .g => 0

/-- The segments an active-low pattern lights, in the order a..g, when segment
`seg` is driven by bit `bitOf seg`. -/
def litSegments (bitOf : Segment → Nat) (pattern : Nat) : List Segment :=
  [Segment.a, Segment.b, Segment.c, Segment.d, Segment.e, Segment.f, Segment.g].filter
    (fun seg => !pattern.testBit (bitOf seg))

/-! ## A model of the receiving shift register -/

/-- The external serial-in, parallel-out register seen from the three lines:
the levels last written to the pins, the shift stage and the latched outputs. -/
structure Receiver where
  clock : Nat
  data : Nat
  latch : Nat
  shift : Nat
  outputs : Nat
  deriving DecidableEq, Repr

/-- Reaction of a receiver of `width` bits to one event: on a rising clock
edge (1 written while the clock is 0) the shift stage moves left by one and
takes the data level as its least significant bit; on a rising latch edge the
shift stage is copied to the outputs. -/
def Receiver.step (width : Nat) (r : Receiver) : Event → Receiver
  | Event.dataPin v => { r with data := v }
  | Event.clockPin v =>
    if r.clock = 0 ∧ v = 1 then
      { r with clock := v, shift := (r.shift * 2 + r.data) % 2 ^ width }
    else
      { r with clock := v }
  | Event.latchPin v =>
    if r.latch = 0 ∧ v = 1 then
      { r with latch := v, outputs := r.shift }
    else
      { r with latch := v }
  | Event.sleep_for _ => r

/-- Reaction of a receiver to a trace. -/
def Receiver.run (width : Nat) (r : Receiver) (events : List Event) : Receiver :=
  events.foldl (Receiver.step width) r

/-! ## Interleaving of the ticker with the main loop -/

/-- One atomic access to the shared time counters: the interrupt routine as a
whole, or one of the two stores of the reset branch (lines 125 and 126). -/
inductive Access where
  | tick
  | storeSeconds
  | storeMinutes
  deriving DecidableEq, Repr

/-- Effect of one atomic access on the state. -/
def applyAccess (st : State) : Access → State
  | Access.tick => incrementTime st
  | Access.storeSeconds => { st with currentSeconds := 0 }
  | Access.storeMinutes => { st with currentMinutes := 0 }

/-- Effect of a sequence of atomic accesses, first to last. -/
def runAccesses (st : State) (accs : List Access) : State :=
  accs.foldl applyAccess st

/-- The states the counters hold during a sequence of accesses: the start
state and the state after each access, in order. -/
def statesHeld (st : State) : List Access → List State
  | [] => [st]
  | a :: rest => st :: statesHeld (applyAccess st a) rest

/-- The value of line 144, `currentMinutes * 100 + currentSeconds`, when the
load of `currentMinutes` sees the state `atFirst` and the later load of
`currentSeconds` sees the state `atSecond`. -/
def timeValueRead (atFirst atSecond : State) : Int :=
  wrapInt32 (wrapInt32 (atFirst.currentMinutes * 100) + atSecond.currentSeconds)

/-! ## The shift-register protocol -/

theorem and_shiftLeft_ne_zero_iff (x n : Nat) : x &&& (1 <<< n) ≠ 0 ↔ x.testBit n = true := by
  rw [Nat.one_shiftLeft]
  constructor
  · intro h
    obtain ⟨i, hi⟩ := Nat.ne_zero_implies_bit_true h
    rw [Nat.testBit_and, Nat.testBit_two_pow] at hi
    simp only [Bool.and_eq_true, decide_eq_true_eq] at hi
    obtain ⟨hx, rfl⟩ := hi
    exact hx
  · intro h hz
    have : (x &&& 2 ^ n).testBit n = true := by
      rw [Nat.testBit_and, Nat.testBit_two_pow_self, h]; rfl
    rw [hz, Nat.zero_testBit] at this
    exact Bool.noConfusion this

theorem maskedBit_eq_wordBit (x n : Nat) :
    (if x &&& (1 <<< n) ≠ 0 then 1 else 0) = wordBit x n := by
  unfold wordBit
  by_cases h : x.testBit n = true
  · rw [if_pos ((and_shiftLeft_ne_zero_iff x n).2 h)]
    rw [Nat.testBit_to_div_mod] at h
    simp only [decide_eq_true_eq] at h
    exact h.symm
  · rw [if_neg (fun hc => h ((and_shiftLeft_ne_zero_iff x n).1 hc))]
    rw [Nat.testBit_to_div_mod] at h
    simp only [decide_eq_true_eq] at h
    omega

theorem shiftOutLoop_eq_clockedBits (x n : Nat) : shiftOutLoop x n = clockedBits x n := by
  induction n with
  | zero => rfl
  | succ k ih =>
    simp only [shiftOutLoop, clockedBits, clockedBit, ih]
    rw [maskedBit_eq_wordBit]

theorem wordBit_low (s d k : Nat) (hk : k < 8) :
    wordBit (s * 256 + d) k = wordBit d k := by
  unfold wordBit
  interval_cases k <;> norm_num <;> omega

theorem wordBit_high (s d k : Nat) (hd : d < 256) :
    wordBit (s * 256 + d) (k + 8) = wordBit s k := by
  unfold wordBit
  rw [Nat.pow_add, Nat.mul_comm (2 ^ k), ← Nat.div_div_eq_div_mul]
  have : (s * 256 + d) / 2 ^ 8 = s := by
    norm_num; omega
  rw [this]


theorem clockedBits_congr (w v : Nat) :
    ∀ n, (∀ k, k < n → wordBit w k = wordBit v k) → clockedBits w n = clockedBits v n
  | 0, _ => rfl
  | n + 1, h => by
    simp only [clockedBits]
    rw [h n (Nat.lt_succ_self n), clockedBits_congr w v n (fun k hk => h k (Nat.lt_succ_of_lt hk))]

theorem clockedBits_word (s d : Nat) (hd : d < 256) :
    ∀ n, clockedBits (s * 256 + d) (n + 8) = clockedBits s n ++ clockedBits d 8
  | 0 => clockedBits_congr _ _ 8 (fun k hk => wordBit_low s d k hk)
  | n + 1 => by
    show clockedBit (wordBit (s * 256 + d) (n + 8)) ++ clockedBits (s * 256 + d) (n + 8) = _
    rw [wordBit_high s d n hd, clockedBits_word s d hd n]
    simp only [clockedBits, List.append_assoc]

theorem clockedBits_succ_append (w n : Nat) (rest : List Event) :
    clockedBits w (n + 1) ++ rest = clockedBit (wordBit w n) ++ (clockedBits w n ++ rest) := by
  simp only [clockedBits, List.append_assoc]

theorem clockPulses_clockedBits (w : Nat) (rest : List Event) :
    ∀ n, clockPulses (clockedBits w n ++ rest) = n + clockPulses rest
  | 0 => by simp [clockedBits]
  | n + 1 => by
    rw [clockedBits_succ_append]
    show clockPulses (clockedBits w n ++ rest) + 1 = _
    rw [clockPulses_clockedBits w rest n]
    omega

theorem latchWrites_clockedBits (w : Nat) (rest : List Event) :
    ∀ n, latchWrites (clockedBits w n ++ rest) = latchWrites rest
  | 0 => by simp [clockedBits]
  | n + 1 => by
    rw [clockedBits_succ_append]
    show latchWrites (clockedBits w n ++ rest) = _
    exact latchWrites_clockedBits w rest n

theorem latchLowAtClock_clockedBits (w : Nat) (rest : List Event) :
    ∀ n, latchLowAtClock 0 (clockedBits w n ++ rest) = latchLowAtClock 0 rest
  | 0 => by simp [clockedBits]
  | n + 1 => by
    rw [clockedBits_succ_append]
    show ((0 : Nat) == 0 && ((0 : Nat) == 0 && latchLowAtClock 0 (clockedBits w n ++ rest))) = _
    rw [latchLowAtClock_clockedBits w rest n]
    simp

theorem updateShiftRegister_eq (segments digit : Nat) (hd : digit < 256) :
    updateShiftRegister segments digit
      = [Event.latchPin 0] ++ clockedBits (segments * 256 + digit) 16 ++ [Event.latchPin 1] := by
  unfold updateShiftRegister shiftOutByte
  rw [shiftOutLoop_eq_clockedBits, shiftOutLoop_eq_clockedBits, clockedBits_word segments digit hd 8]
  simp only [List.append_assoc]

/-- C1: the pin writes of `updateShiftRegister segments digit` are latch=0, then
the 16 bits of the word `segments*256+digit` from bit 15 down to bit 0, each as
data=bit, clock=1, clock=0, then latch=1; so there are 16 clock pulses, the
latch is written exactly twice (0 first, 1 last) and is low at every clock
write, and the segments byte goes out before the digit byte. -/
theorem updateShiftRegister_protocol (segments digit : Nat)
    (hs : segments < 256) (hd : digit < 256) :
    segments * 256 + digit < 65536
    ∧ updateShiftRegister segments digit
        = [Event.latchPin 0] ++ clockedBits (segments * 256 + digit) 16 ++ [Event.latchPin 1]
    ∧ clockPulses (updateShiftRegister segments digit) = 16
    ∧ latchWrites (updateShiftRegister segments digit) = [0, 1]
    ∧ (∀ latch, latchLowAtClock latch (updateShiftRegister segments digit) = true)
    ∧ updateShiftRegister segments digit
        = [Event.latchPin 0] ++ clockedBits segments 8 ++ clockedBits digit 8
            ++ [Event.latchPin 1] := by
  refine ⟨by omega, updateShiftRegister_eq segments digit hd, ?_, ?_, ?_, ?_⟩
  · rw [updateShiftRegister_eq segments digit hd, List.append_assoc]
    show clockPulses (clockedBits (segments * 256 + digit) 16 ++ [Event.latchPin 1]) = 16
    rw [clockPulses_clockedBits]
    rfl
  · rw [updateShiftRegister_eq segments digit hd, List.append_assoc]
    show 0 :: latchWrites (clockedBits (segments * 256 + digit) 16 ++ [Event.latchPin 1]) = _
    rw [latchWrites_clockedBits]
    rfl
  · intro latch
    rw [updateShiftRegister_eq segments digit hd, List.append_assoc]
    show latchLowAtClock 0 (clockedBits (segments * 256 + digit) 16 ++ [Event.latchPin 1]) = _
    rw [latchLowAtClock_clockedBits]
    rfl
  · unfold updateShiftRegister shiftOutByte
    rw [shiftOutLoop_eq_clockedBits, shiftOutLoop_eq_clockedBits]

/-- Instance of C1 at the bytes 0b10110100 and 0b00000010. -/
theorem updateShiftRegister_protocol_witness :
    (0xB4 < 256 ∧ 0x02 < 256)
    ∧ updateShiftRegister 0xB4 0x02
        = [Event.latchPin 0] ++ clockedBits (0xB4 * 256 + 0x02) 16 ++ [Event.latchPin 1]
    ∧ clockPulses (updateShiftRegister 0xB4 0x02) = 16 :=
  ⟨⟨by decide, by decide⟩,
   (updateShiftRegister_protocol 0xB4 0x02 (by decide) (by decide)).2.1,
   (updateShiftRegister_protocol 0xB4 0x02 (by decide) (by decide)).2.2.1⟩

/-! ## Timekeeping -/

theorem incrementTime_lt (st : State) (h0 : 0 ≤ st.currentSeconds)
    (h1 : st.currentSeconds < 59) :
    incrementTime st = { st with currentSeconds := st.currentSeconds + 1 } := by
  have hw : wrapInt32 (st.currentSeconds + 1) = st.currentSeconds + 1 := by
    unfold wrapInt32; omega
  unfold incrementTime
  simp only [hw]
  rw [if_neg (by omega)]

theorem incrementTime_eq (st : State) (h0 : st.currentSeconds = 59)
    (hm0 : 0 ≤ st.currentMinutes) (hm1 : st.currentMinutes ≤ 99) :
    incrementTime st
      = { st with currentSeconds := 0, currentMinutes := (st.currentMinutes + 1) % 100 } := by
  have hw : wrapInt32 (st.currentSeconds + 1) = 60 := by
    unfold wrapInt32; omega
  have hm : wrapInt32 (st.currentMinutes + 1) = st.currentMinutes + 1 := by
    unfold wrapInt32; omega
  unfold incrementTime
  simp only [hw, hm]
  rw [if_pos (by decide), Int.tmod_eq_emod (by omega) (by decide)]

theorem ticks_initialState (n : Nat) :
    ticks n initialState
      = { initialState with
          currentSeconds := ((n % 60 : Nat) : Int)
          currentMinutes := ((n / 60 % 100 : Nat) : Int) } := by
  induction n with
  | zero => rfl
  | succ k ih =>
    show incrementTime (ticks k initialState) = _
    rw [ih]
    by_cases h : k % 60 = 59
    · rw [incrementTime_eq _ (by simp only; omega) (by simp only; omega) (by simp only; omega)]
      simp only [State.mk.injEq, and_true, true_and]
      omega
    · rw [incrementTime_lt _ (by simp only; omega) (by simp only; omega)]
      simp only [State.mk.injEq, and_true, true_and]
      omega

/-- C3: `n` calls of `incrementTime` from the initial state (0, 0) give
seconds = n mod 60 and minutes = (n div 60) mod 100; 60 ticks give (0, 1) and
6000 ticks give (0, 0). -/
theorem ticks_from_zero (n : Nat) :
    (ticks n initialState).currentSeconds = ((n % 60 : Nat) : Int)
    ∧ (ticks n initialState).currentMinutes = ((n / 60 % 100 : Nat) : Int)
    ∧ ((ticks 60 initialState).currentSeconds = 0 ∧ (ticks 60 initialState).currentMinutes = 1)
    ∧ ((ticks 6000 initialState).currentSeconds = 0
        ∧ (ticks 6000 initialState).currentMinutes = 0) := by
  refine ⟨?_, ?_, ⟨?_, ?_⟩, ⟨?_, ?_⟩⟩ <;> rw [ticks_initialState] <;> rfl

/-- C4: from a state with seconds in 0..59 and minutes in 0..99, one call of
`incrementTime` gives (seconds + 1, minutes) when seconds < 59, and
(0, (minutes + 1) mod 100) when seconds = 59; the two voltage fields are left
as they were. -/
theorem incrementTime_step (st : State)
    (hs0 : 0 ≤ st.currentSeconds) (hs1 : st.currentSeconds ≤ 59)
    (hm0 : 0 ≤ st.currentMinutes) (hm1 : st.currentMinutes ≤ 99) :
    (st.currentSeconds < 59 →
        incrementTime st = { st with currentSeconds := st.currentSeconds + 1 })
    ∧ (st.currentSeconds = 59 →
        incrementTime st
          = { st with currentSeconds := 0, currentMinutes := (st.currentMinutes + 1) % 100 })
    ∧ (st.currentSeconds = 59 → st.currentMinutes = 99 →
        (incrementTime st).currentMinutes = 0)
    ∧ (incrementTime st).minimumVoltage = st.minimumVoltage
    ∧ (incrementTime st).maximumVoltage = st.maximumVoltage := by
  have hsplit : st.currentSeconds < 59 ∨ st.currentSeconds = 59 := by omega
  refine ⟨fun h => incrementTime_lt st hs0 h, fun h => incrementTime_eq st h hm0 hm1, ?_, ?_, ?_⟩
  · intro h h99
    rw [incrementTime_eq st h hm0 hm1]
    simp only [h99]
    rfl
  · rcases hsplit with h | h
    · rw [incrementTime_lt st hs0 h]
    · rw [incrementTime_eq st h hm0 hm1]
  · rcases hsplit with h | h
    · rw [incrementTime_lt st hs0 h]
    · rw [incrementTime_eq st h hm0 hm1]

/-- Instance of C4 at 12:59 and at 99:59. -/
theorem incrementTime_step_witness :
    incrementTime { currentSeconds := 59, currentMinutes := 12,
                    minimumVoltage := 1, maximumVoltage := 2 }
      = { currentSeconds := 0, currentMinutes := 13, minimumVoltage := 1, maximumVoltage := 2 }
    ∧ (incrementTime { currentSeconds := 59, currentMinutes := 99,
                       minimumVoltage := 1, maximumVoltage := 2 }).currentMinutes = 0 :=
  ⟨(incrementTime_step ⟨59, 12, 1, 2⟩ (by decide) (by decide) (by decide) (by decide)).2.1 rfl,
   (incrementTime_step ⟨59, 99, 1, 2⟩ (by decide) (by decide) (by decide)
      (by decide)).2.2.1 rfl rfl⟩

theorem ticks_congr (st st' : State) (hs : st.currentSeconds = st'.currentSeconds)
    (hm : st.currentMinutes = st'.currentMinutes) (n : Nat) :
    (ticks n st).currentSeconds = (ticks n st').currentSeconds
    ∧ (ticks n st).currentMinutes = (ticks n st').currentMinutes := by
  induction n with
  | zero => exact ⟨hs, hm⟩
  | succ k ih =>
    show (incrementTime (ticks k st)).currentSeconds = (incrementTime (ticks k st')).currentSeconds
      ∧ (incrementTime (ticks k st)).currentMinutes
          = (incrementTime (ticks k st')).currentMinutes
    unfold incrementTime
    simp only [ih.1, ih.2]
    split <;> exact ⟨rfl, rfl⟩

/-- C5: whatever the state, the reset branch of the main loop sets
(seconds, minutes) to (0, 0), one `incrementTime` after it gives (1, 0), and
reset followed by `n` ticks gives the seconds and minutes of `n` ticks from the
initial state. -/
theorem mainReset_then_ticks (st : State) :
    ((mainReset st).currentSeconds = 0 ∧ (mainReset st).currentMinutes = 0)
    ∧ ((incrementTime (mainReset st)).currentSeconds = 1
        ∧ (incrementTime (mainReset st)).currentMinutes = 0)
    ∧ ∀ n : Nat,
        (ticks n (mainReset st)).currentSeconds = (ticks n initialState).currentSeconds
        ∧ (ticks n (mainReset st)).currentMinutes = (ticks n initialState).currentMinutes :=
  ⟨⟨rfl, rfl⟩, ⟨rfl, rfl⟩, fun n => ticks_congr (mainReset st) initialState rfl rfl n⟩

theorem applyStep_range (st : State) (step : TimeStep)
    (h : (0 ≤ st.currentSeconds ∧ st.currentSeconds ≤ 59)
      ∧ (0 ≤ st.currentMinutes ∧ st.currentMinutes ≤ 99)) :
    (0 ≤ (applyStep st step).currentSeconds ∧ (applyStep st step).currentSeconds ≤ 59)
    ∧ (0 ≤ (applyStep st step).currentMinutes ∧ (applyStep st step).currentMinutes ≤ 99) := by
  obtain ⟨⟨hs0, hs1⟩, hm0, hm1⟩ := h
  cases step with
  | reset =>
    exact ⟨⟨le_refl _, show (0 : Int) ≤ 59 by decide⟩, le_refl _, show (0 : Int) ≤ 99 by decide⟩
  | tick =>
    show (0 ≤ (incrementTime st).currentSeconds ∧ (incrementTime st).currentSeconds ≤ 59)
      ∧ (0 ≤ (incrementTime st).currentMinutes ∧ (incrementTime st).currentMinutes ≤ 99)
    have hsplit : st.currentSeconds < 59 ∨ st.currentSeconds = 59 := by omega
    rcases hsplit with h | h
    · rw [incrementTime_lt st hs0 h]
      simp only
      omega
    · rw [incrementTime_eq st h hm0 hm1]
      simp only
      omega

theorem runSteps_range (steps : List TimeStep) :
    ∀ st : State,
      ((0 ≤ st.currentSeconds ∧ st.currentSeconds ≤ 59)
        ∧ (0 ≤ st.currentMinutes ∧ st.currentMinutes ≤ 99)) →
      (0 ≤ (runSteps st steps).currentSeconds ∧ (runSteps st steps).currentSeconds ≤ 59)
      ∧ (0 ≤ (runSteps st steps).currentMinutes ∧ (runSteps st steps).currentMinutes ≤ 99) := by
  induction steps with
  | nil => intro st h; exact h
  | cons step rest ih =>
    intro st h
    show (0 ≤ (runSteps (applyStep st step) rest).currentSeconds ∧ _) ∧ _
    exact ih (applyStep st step) (applyStep_range st step h)

/-- C6: in every state reached from the initial state (0, 0) by a finite
sequence of `incrementTime` and reset steps, seconds is in 0..59 and minutes is
in 0..99. -/
theorem reachable_time_in_range (steps : List TimeStep) :
    (0 ≤ (runSteps initialState steps).currentSeconds
      ∧ (runSteps initialState steps).currentSeconds ≤ 59)
    ∧ (0 ≤ (runSteps initialState steps).currentMinutes
      ∧ (runSteps initialState steps).currentMinutes ≤ 99) :=
  runSteps_range steps initialState ⟨⟨le_refl _, by decide⟩, le_refl _, by decide⟩

/-! ## The display refresh -/

theorem individualDigits_of_nonneg (number : Int) (h : 0 ≤ number) :
    individualDigits number
      = [number / 1000 % 10, number / 100 % 10, number / 10 % 10, number % 10] := by
  unfold individualDigits
  rw [Int.tdiv_eq_ediv h (by decide), Int.tdiv_eq_ediv h (by decide),
    Int.tdiv_eq_ediv h (by decide), Int.tmod_eq_emod h (by decide),
    Int.tmod_eq_emod (by omega) (by decide), Int.tmod_eq_emod (by omega) (by decide),
    Int.tmod_eq_emod (by omega) (by decide)]

theorem segmentPatterns_at (d : Int) (h0 : 0 ≤ d) (h9 : d ≤ 9) :
    ∃ p, arrayAt segmentPatterns d = some p
      ∧ p.testBit 7 = true
      ∧ (toUint8 (p &&& intNot 0x80)).testBit 7 = false
      ∧ toUint8 (p &&& intNot 0x80) % 128 = p % 128 := by
  obtain ⟨n, rfl⟩ := Int.eq_ofNat_of_zero_le h0
  have hn : n ≤ 9 := by omega
  interval_cases n <;> exact ⟨_, rfl, by decide, by decide, by decide⟩

theorem digitSegments_eq (digits : List Int) (showDecimal : Bool) (decimalPos : Int)
    (digitIndex : Nat) (d : Int) (p : Nat) (hd : digits.get? digitIndex = some d)
    (hp : arrayAt segmentPatterns d = some p) :
    digitSegments digits showDecimal decimalPos digitIndex
      = some (if showDecimal && ((digitIndex : Int) == decimalPos)
          then toUint8 (p &&& intNot 0x80) else p) := by
  unfold digitSegments
  rw [hd]
  simp only [Option.bind_eq_bind, Option.some_bind, hp]
  split <;> rfl

theorem displayLoop_four (digits : List Int) (showDecimal : Bool) (decimalPos : Int)
    (s0 s1 s2 s3 : Nat)
    (h0 : digitSegments digits showDecimal decimalPos 0 = some s0)
    (h1 : digitSegments digits showDecimal decimalPos 1 = some s1)
    (h2 : digitSegments digits showDecimal decimalPos 2 = some s2)
    (h3 : digitSegments digits showDecimal decimalPos 3 = some s3) :
    displayLoop digits showDecimal decimalPos 4 0
      = some (writeAndDwell s0 0x01 ++ writeAndDwell s1 0x02 ++ writeAndDwell s2 0x04
          ++ writeAndDwell s3 0x08) := by
  simp only [displayLoop, displayDigit, h0, h1, h2, h3, digitSelect, writeAndDwell,
    Option.bind_eq_bind, Option.some_bind, List.get?, Option.pure_def, List.append_nil,
    List.append_assoc]

theorem totalSleep_clockedBits (w : Nat) (rest : List Event) :
    ∀ n, totalSleep (clockedBits w n ++ rest) = totalSleep rest
  | 0 => by simp [clockedBits]
  | n + 1 => by
    rw [clockedBits_succ_append]
    show totalSleep (clockedBits w n ++ rest) = _
    exact totalSleep_clockedBits w rest n

theorem totalSleep_latchPin (v : Nat) (rest : List Event) :
    totalSleep (Event.latchPin v :: rest) = totalSleep rest := rfl

theorem totalSleep_writeAndDwell (segments digit : Nat) (rest : List Event) :
    totalSleep (writeAndDwell segments digit ++ rest) = 2 + totalSleep rest := by
  unfold writeAndDwell updateShiftRegister shiftOutByte
  rw [shiftOutLoop_eq_clockedBits, shiftOutLoop_eq_clockedBits]
  simp only [List.append_assoc, List.singleton_append, List.cons_append, List.nil_append]
  rw [totalSleep_latchPin, totalSleep_clockedBits, totalSleep_clockedBits]
  rfl

theorem totalSleep_frameTrace (segs : List Nat) : totalSleep (frameTrace segs) = 8 := by
  unfold frameTrace
  simp only [List.append_assoc]
  rw [totalSleep_writeAndDwell, totalSleep_writeAndDwell, totalSleep_writeAndDwell,
    ← List.append_nil (writeAndDwell _ 8), totalSleep_writeAndDwell]
  rfl

theorem displayFourDigitNumber_of_patterns (number : Int) (showDecimal : Bool)
    (decimalPos : Int) (h : 0 ≤ number) (p0 p1 p2 p3 : Nat)
    (hp0 : arrayAt segmentPatterns (number / 1000 % 10) = some p0)
    (hp1 : arrayAt segmentPatterns (number / 100 % 10) = some p1)
    (hp2 : arrayAt segmentPatterns (number / 10 % 10) = some p2)
    (hp3 : arrayAt segmentPatterns (number % 10) = some p3) :
    displayFourDigitNumber number showDecimal decimalPos
      = some (frameTrace
          [ if showDecimal && (((0 : Nat) : Int) == decimalPos)
              then toUint8 (p0 &&& intNot 0x80) else p0,
            if showDecimal && (((1 : Nat) : Int) == decimalPos)
              then toUint8 (p1 &&& intNot 0x80) else p1,
            if showDecimal && (((2 : Nat) : Int) == decimalPos)
              then toUint8 (p2 &&& intNot 0x80) else p2,
            if showDecimal && (((3 : Nat) : Int) == decimalPos)
              then toUint8 (p3 &&& intNot 0x80) else p3 ]) := by
  unfold displayFourDigitNumber
  rw [individualDigits_of_nonneg number h]
  exact displayLoop_four _ showDecimal decimalPos _ _ _ _
    (digitSegments_eq _ _ _ 0 _ p0 rfl hp0) (digitSegments_eq _ _ _ 1 _ p1 rfl hp1)
    (digitSegments_eq _ _ _ 2 _ p2 rfl hp2) (digitSegments_eq _ _ _ 3 _ p3 rfl hp3)

theorem displayFourDigitNumber_of_nonneg (number : Int) (showDecimal : Bool) (decimalPos : Int)
    (h : 0 ≤ number) :
    ∃ p0 p1 p2 p3 : Nat,
      arrayAt segmentPatterns (number / 1000 % 10) = some p0
      ∧ arrayAt segmentPatterns (number / 100 % 10) = some p1
      ∧ arrayAt segmentPatterns (number / 10 % 10) = some p2
      ∧ arrayAt segmentPatterns (number % 10) = some p3
      ∧ displayFourDigitNumber number showDecimal decimalPos
        = some (frameTrace
            [ if showDecimal && (((0 : Nat) : Int) == decimalPos)
                then toUint8 (p0 &&& intNot 0x80) else p0,
              if showDecimal && (((1 : Nat) : Int) == decimalPos)
                then toUint8 (p1 &&& intNot 0x80) else p1,
              if showDecimal && (((2 : Nat) : Int) == decimalPos)
                then toUint8 (p2 &&& intNot 0x80) else p2,
              if showDecimal && (((3 : Nat) : Int) == decimalPos)
                then toUint8 (p3 &&& intNot 0x80) else p3 ]) := by
  obtain ⟨p0, hp0, -⟩ := segmentPatterns_at (number / 1000 % 10) (by omega) (by omega)
  obtain ⟨p1, hp1, -⟩ := segmentPatterns_at (number / 100 % 10) (by omega) (by omega)
  obtain ⟨p2, hp2, -⟩ := segmentPatterns_at (number / 10 % 10) (by omega) (by omega)
  obtain ⟨p3, hp3, -⟩ := segmentPatterns_at (number % 10) (by omega) (by omega)
  exact ⟨p0, p1, p2, p3, hp0, hp1, hp2, hp3,
    displayFourDigitNumber_of_patterns number showDecimal decimalPos h p0 p1 p2 p3
      hp0 hp1 hp2 hp3⟩

/-- C2: for a non-negative number, `displayFourDigitNumber` performs four bus
writes, positions 0 to 3 in order, with select masks 0x01, 0x02, 0x04, 0x08
(one-hot: 2^0 .. 2^3); the segment byte of position `i` has the low 7 bits of
`segmentPatterns[(number / 10^(3-i)) % 10]`; each write is followed by a 2 ms
sleep, 8 ms in total. For 1234 without decimal point the bytes are the patterns
of 1, 2, 3, 4. -/
theorem displayFourDigitNumber_writes (number : Int) (showDecimal : Bool) (decimalPos : Int)
    (h : 0 ≤ number) :
    (∃ segs : List Nat,
      segs.length = 4
      ∧ displayFourDigitNumber number showDecimal decimalPos = some (frameTrace segs)
      ∧ (∀ i : Nat, i < 4 → ∃ p, arrayAt segmentPatterns (number / 10 ^ (3 - i) % 10) = some p
          ∧ segs.getD i 0 % 128 = p % 128)
      ∧ totalSleep (frameTrace segs) = 8)
    ∧ digitSelect = [2 ^ 0, 2 ^ 1, 2 ^ 2, 2 ^ 3]
    ∧ (∃ p1 p2 p3 p4 : Nat,
        segmentPatterns.get? 1 = some p1 ∧ segmentPatterns.get? 2 = some p2
        ∧ segmentPatterns.get? 3 = some p3 ∧ segmentPatterns.get? 4 = some p4
        ∧ displayFourDigitNumber 1234 false (-1) = some (frameTrace [p1, p2, p3, p4])) := by
  refine ⟨?_, rfl, ⟨_, _, _, _, rfl, rfl, rfl, rfl, rfl⟩⟩
  obtain ⟨p0, p1, p2, p3, hp0, hp1, hp2, hp3, hrun⟩ :=
    displayFourDigitNumber_of_nonneg number showDecimal decimalPos h
  obtain ⟨q0, hq0, -, -, hl0⟩ := segmentPatterns_at (number / 1000 % 10) (by omega) (by omega)
  obtain ⟨q1, hq1, -, -, hl1⟩ := segmentPatterns_at (number / 100 % 10) (by omega) (by omega)
  obtain ⟨q2, hq2, -, -, hl2⟩ := segmentPatterns_at (number / 10 % 10) (by omega) (by omega)
  obtain ⟨q3, hq3, -, -, hl3⟩ := segmentPatterns_at (number % 10) (by omega) (by omega)
  obtain rfl : q0 = p0 := Option.some.inj (hq0.symm.trans hp0)
  obtain rfl : q1 = p1 := Option.some.inj (hq1.symm.trans hp1)
  obtain rfl : q2 = p2 := Option.some.inj (hq2.symm.trans hp2)
  obtain rfl : q3 = p3 := Option.some.inj (hq3.symm.trans hp3)
  refine ⟨_, ?_, hrun, ?_, totalSleep_frameTrace _⟩
  · rfl
  intro i hi
  interval_cases i
  · refine ⟨q0, by simpa using hq0, ?_⟩
    show (if _ then _ else _) % 128 = _
    split
    · exact hl0
    · rfl
  · refine ⟨q1, by simpa using hq1, ?_⟩
    show (if _ then _ else _) % 128 = _
    split
    · exact hl1
    · rfl
  · refine ⟨q2, by simpa using hq2, ?_⟩
    show (if _ then _ else _) % 128 = _
    split
    · exact hl2
    · rfl
  · refine ⟨q3, by simpa using hq3, ?_⟩
    show (if _ then _ else _) % 128 = _
    split
    · exact hl3
    · rfl

/-- Instance of C2 at 2047 with the decimal point at position 1. -/
theorem displayFourDigitNumber_writes_witness :
    (0 : Int) ≤ 2047
    ∧ ∃ segs : List Nat,
      segs.length = 4
      ∧ displayFourDigitNumber 2047 true 1 = some (frameTrace segs)
      ∧ (∀ i : Nat, i < 4 → ∃ p, arrayAt segmentPatterns (2047 / 10 ^ (3 - i) % 10) = some p
          ∧ segs.getD i 0 % 128 = p % 128)
      ∧ totalSleep (frameTrace segs) = 8 :=
  ⟨by decide, (displayFourDigitNumber_writes 2047 true 1 (by decide)).1⟩

/-! ## The segment table -/

/-- C7: the table is 0xC0, 0xF9, 0xA4, 0xB0, 0x99, 0x92, 0x82, 0xF8, 0x80,
0x90; it is the byte written when no decimal point is requested; for each digit
0..9 bit 7 is 1, and with bits 0..6 read as segments a..g a bit is 0 exactly
when the segment is lit in the standard glyph of the digit. -/
theorem segmentPatterns_standard_glyphs (d : Nat) (hd : d < 10) :
    segmentPatterns = [0xC0, 0xF9, 0xA4, 0xB0, 0x99, 0x92, 0x82, 0xF8, 0x80, 0x90]
    ∧ (∀ (digits : List Int) (decimalPos : Int) (digitIndex : Nat),
        digits.get? digitIndex = some (d : Int) →
        digitSegments digits false decimalPos digitIndex = segmentPatterns.get? d)
    ∧ ∃ p, segmentPatterns.get? d = some p
      ∧ p.testBit 7 = true
      ∧ ∀ seg : Segment, (p.testBit seg.bit = false ↔ seg ∈ standardGlyph d) := by
  refine ⟨rfl, ?_, ?_⟩
  · intro digits decimalPos digitIndex hget
    obtain ⟨p, hp, -⟩ := segmentPatterns_at (d : Int) (by omega) (by omega)
    rw [digitSegments_eq digits false decimalPos digitIndex d p hget hp]
    unfold arrayAt at hp
    rw [if_pos (by omega), Int.toNat_ofNat] at hp
    rw [hp]
    rfl
  · interval_cases d <;> refine ⟨_, rfl, by decide, ?_⟩ <;> intro seg <;> cases seg <;> decide

/-- Instance of C7 at the digit 4 (segments b, c, f, g). -/
theorem segmentPatterns_standard_glyphs_witness :
    4 < 10
    ∧ ∃ p, segmentPatterns.get? 4 = some p
      ∧ p.testBit 7 = true
      ∧ ∀ seg : Segment, (p.testBit seg.bit = false ↔ seg ∈ standardGlyph 4) :=
  ⟨by decide, (segmentPatterns_standard_glyphs 4 (by decide)).2.2⟩

/-! ## The digit decomposition -/

theorem tdiv_of_nonpos (a b : Int) (ha : a ≤ 0) (hb : 0 ≤ b) : a.tdiv b = -(-a / b) := by
  have hneg : a = -(-a) := by omega
  conv => lhs; rw [hneg]
  rw [Int.neg_tdiv, Int.tdiv_eq_ediv (by omega) hb]

theorem tmod_of_nonpos (a b : Int) (ha : a ≤ 0) (hb : 0 ≤ b) : a.tmod b = -(-a % b) := by
  rw [Int.tmod_def, tdiv_of_nonpos a b ha hb, Int.emod_def]
  rw [Int.mul_neg]
  omega

/-- C9: for every integer `v`, the four digits computed by
`displayFourDigitNumber` with truncating division and remainder satisfy
d0*1000 + d1*100 + d2*10 + d3 = v % 10000 (truncating remainder). -/
theorem individualDigits_reconstruct (v : Int) :
    ∃ d0 d1 d2 d3 : Int,
      individualDigits v = [d0, d1, d2, d3]
      ∧ d0 * 1000 + d1 * 100 + d2 * 10 + d3 = v.tmod 10000 := by
  refine ⟨_, _, _, _, rfl, ?_⟩
  rcases le_total 0 v with h | h
  · rw [Int.tdiv_eq_ediv h (by decide), Int.tdiv_eq_ediv h (by decide),
      Int.tdiv_eq_ediv h (by decide), Int.tmod_eq_emod h (by decide),
      Int.tmod_eq_emod h (by decide),
      Int.tmod_eq_emod (by omega) (by decide), Int.tmod_eq_emod (by omega) (by decide),
      Int.tmod_eq_emod (by omega) (by decide)]
    omega
  · rw [tdiv_of_nonpos v 1000 h (by decide), tdiv_of_nonpos v 100 h (by decide),
      tdiv_of_nonpos v 10 h (by decide), tmod_of_nonpos v 10 h (by decide),
      tmod_of_nonpos v 10000 h (by decide),
      tmod_of_nonpos _ 10 (by omega) (by decide), tmod_of_nonpos _ 10 (by omega) (by decide),
      tmod_of_nonpos _ 10 (by omega) (by decide)]
    omega

/-! ## The decimal point -/

theorem selectedSegments_spec (showDecimal : Bool) (decimalPos : Int) (i p : Nat)
    (h7 : p.testBit 7 = true) (hc : (toUint8 (p &&& intNot 0x80)).testBit 7 = false)
    (hl : toUint8 (p &&& intNot 0x80) % 128 = p % 128) :
    ((if showDecimal && ((i : Int) == decimalPos)
        then toUint8 (p &&& intNot 0x80) else p).testBit 7 = false
      ↔ (showDecimal = true ∧ decimalPos = (i : Int)))
    ∧ (if showDecimal && ((i : Int) == decimalPos)
        then toUint8 (p &&& intNot 0x80) else p) % 128 = p % 128 := by
  by_cases hcond : (showDecimal && ((i : Int) == decimalPos)) = true
  · rw [if_pos hcond]
    simp only [Bool.and_eq_true, beq_iff_eq] at hcond
    exact ⟨⟨fun _ => ⟨hcond.1, hcond.2.symm⟩, fun _ => hc⟩, hl⟩
  · rw [if_neg hcond]
    simp only [Bool.and_eq_true, beq_iff_eq] at hcond
    refine ⟨⟨fun hf => ?_, fun hdp => ?_⟩, rfl⟩
    · rw [h7] at hf
      exact Bool.noConfusion hf
    · exact absurd ⟨hdp.1, hdp.2.symm⟩ hcond

/-- C8: for a non-negative number the segment byte written at position `i` has
bit 7 cleared exactly when `showDecimal` holds and `decimalPos = i`, and its
bits 0..6 are those of the byte written for the same digit without decimal
point, which is the table entry and has bit 7 set. So at most one position of
a render shows a decimal point, and with the default arguments (false, -1)
none does. -/
theorem decimal_point_position (number : Int) (showDecimal : Bool) (decimalPos : Int)
    (h : 0 ≤ number) :
    ∃ segs plain : List Nat,
      segs.length = 4 ∧ plain.length = 4
      ∧ displayFourDigitNumber number showDecimal decimalPos = some (frameTrace segs)
      ∧ displayFourDigitNumber number false (-1) = some (frameTrace plain)
      ∧ (∀ i : Nat, i < 4 →
          arrayAt segmentPatterns (number / 10 ^ (3 - i) % 10) = some (plain.getD i 0)
          ∧ ((segs.getD i 0).testBit 7 = false ↔ (showDecimal = true ∧ decimalPos = (i : Int)))
          ∧ segs.getD i 0 % 128 = plain.getD i 0 % 128
          ∧ (plain.getD i 0).testBit 7 = true)
      ∧ (∀ i j : Nat, i < 4 → j < 4 → (segs.getD i 0).testBit 7 = false →
          (segs.getD j 0).testBit 7 = false → i = j) := by
  obtain ⟨p0, hp0, h70, hc0, hl0⟩ :=
    segmentPatterns_at (number / 1000 % 10) (by omega) (by omega)
  obtain ⟨p1, hp1, h71, hc1, hl1⟩ :=
    segmentPatterns_at (number / 100 % 10) (by omega) (by omega)
  obtain ⟨p2, hp2, h72, hc2, hl2⟩ :=
    segmentPatterns_at (number / 10 % 10) (by omega) (by omega)
  obtain ⟨p3, hp3, h73, hc3, hl3⟩ := segmentPatterns_at (number % 10) (by omega) (by omega)
  have hpos : ∀ i : Nat, i < 4 →
      arrayAt segmentPatterns (number / 10 ^ (3 - i) % 10) = some ([p0, p1, p2, p3].getD i 0)
      ∧ (([ if showDecimal && (((0 : Nat) : Int) == decimalPos)
              then toUint8 (p0 &&& intNot 0x80) else p0,
            if showDecimal && (((1 : Nat) : Int) == decimalPos)
              then toUint8 (p1 &&& intNot 0x80) else p1,
            if showDecimal && (((2 : Nat) : Int) == decimalPos)
              then toUint8 (p2 &&& intNot 0x80) else p2,
            if showDecimal && (((3 : Nat) : Int) == decimalPos)
              then toUint8 (p3 &&& intNot 0x80) else p3 ].getD i 0).testBit 7 = false
          ↔ (showDecimal = true ∧ decimalPos = (i : Int)))
      ∧ ([ if showDecimal && (((0 : Nat) : Int) == decimalPos)
              then toUint8 (p0 &&& intNot 0x80) else p0,
            if showDecimal && (((1 : Nat) : Int) == decimalPos)
              then toUint8 (p1 &&& intNot 0x80) else p1,
            if showDecimal && (((2 : Nat) : Int) == decimalPos)
              then toUint8 (p2 &&& intNot 0x80) else p2,
            if showDecimal && (((3 : Nat) : Int) == decimalPos)
              then toUint8 (p3 &&& intNot 0x80) else p3 ].getD i 0) % 128
          = [p0, p1, p2, p3].getD i 0 % 128
      ∧ ([p0, p1, p2, p3].getD i 0).testBit 7 = true := by
    intro i hi
    interval_cases i
    · exact ⟨by simpa using hp0, (selectedSegments_spec showDecimal decimalPos 0 p0 h70 hc0 hl0).1,
        (selectedSegments_spec showDecimal decimalPos 0 p0 h70 hc0 hl0).2, h70⟩
    · exact ⟨by simpa using hp1, (selectedSegments_spec showDecimal decimalPos 1 p1 h71 hc1 hl1).1,
        (selectedSegments_spec showDecimal decimalPos 1 p1 h71 hc1 hl1).2, h71⟩
    · exact ⟨by simpa using hp2, (selectedSegments_spec showDecimal decimalPos 2 p2 h72 hc2 hl2).1,
        (selectedSegments_spec showDecimal decimalPos 2 p2 h72 hc2 hl2).2, h72⟩
    · exact ⟨by simpa using hp3, (selectedSegments_spec showDecimal decimalPos 3 p3 h73 hc3 hl3).1,
        (selectedSegments_spec showDecimal decimalPos 3 p3 h73 hc3 hl3).2, h73⟩
  refine ⟨_, [p0, p1, p2, p3], ?_, rfl,
    displayFourDigitNumber_of_patterns number showDecimal decimalPos h p0 p1 p2 p3
      hp0 hp1 hp2 hp3,
    displayFourDigitNumber_of_patterns number false (-1) h p0 p1 p2 p3 hp0 hp1 hp2 hp3,
    hpos, ?_⟩
  · rfl
  · intro i j hi hj hbi hbj
    have hdi := ((hpos i hi).2.1.1 hbi).2
    have hdj := ((hpos j hj).2.1.1 hbj).2
    omega

/-- Instance of C8 at 245 with the arguments of the voltage display. -/
theorem decimal_point_position_witness :
    (0 : Int) ≤ 245
    ∧ ∃ segs plain : List Nat,
      segs.length = 4 ∧ plain.length = 4
      ∧ displayFourDigitNumber 245 true 1 = some (frameTrace segs)
      ∧ displayFourDigitNumber 245 false (-1) = some (frameTrace plain)
      ∧ (∀ i : Nat, i < 4 →
          arrayAt segmentPatterns (245 / 10 ^ (3 - i) % 10) = some (plain.getD i 0)
          ∧ ((segs.getD i 0).testBit 7 = false ↔ (true = true ∧ (1 : Int) = (i : Int)))
          ∧ segs.getD i 0 % 128 = plain.getD i 0 % 128
          ∧ (plain.getD i 0).testBit 7 = true)
      ∧ (∀ i j : Nat, i < 4 → j < 4 → (segs.getD i 0).testBit 7 = false →
          (segs.getD j 0).testBit 7 = false → i = j) :=
  ⟨by decide, decimal_point_position 245 true 1 (by decide)⟩

/-! ## Table lookups stay in bounds -/

/-- C10, as stated, fails at a negative number: the last digit of -1 is -1,
outside 0..9, the table read at it is outside the array, and the call has no
defined result. -/
theorem individualDigits_negative_out_of_range :
    individualDigits (-1) = [0, 0, 0, -1]
    ∧ ¬ (∀ d ∈ individualDigits (-1), 0 ≤ d ∧ d ≤ 9)
    ∧ arrayAt segmentPatterns (-1) = none
    ∧ displayFourDigitNumber (-1) false (-1) = none := by
  refine ⟨rfl, ?_, rfl, rfl⟩
  intro hall
  exact absurd (hall (-1) (by decide)).1 (by decide)

/-- C10 amended: for every non-negative number each of the four digits of the
decomposition lies in 0..9, every read of `segmentPatterns` at one of them is
inside the table, and the call of `displayFourDigitNumber` has a result. -/
theorem individualDigits_in_range (number : Int) (h : 0 ≤ number) :
    (∀ d ∈ individualDigits number,
      0 ≤ d ∧ d ≤ 9 ∧ d.toNat < segmentPatterns.length
        ∧ (arrayAt segmentPatterns d).isSome = true)
    ∧ ∀ (showDecimal : Bool) (decimalPos : Int),
        (displayFourDigitNumber number showDecimal decimalPos).isSome = true := by
  constructor
  · intro d hd
    rw [individualDigits_of_nonneg number h] at hd
    have hrange : 0 ≤ d ∧ d ≤ 9 := by
      simp only [List.mem_cons, List.mem_singleton, List.not_mem_nil, or_false] at hd
      rcases hd with rfl | rfl | rfl | rfl <;> omega
    obtain ⟨p, hp, -⟩ := segmentPatterns_at d hrange.1 hrange.2
    refine ⟨hrange.1, hrange.2, ?_, by rw [hp]; rfl⟩
    show d.toNat < 10
    omega
  · intro showDecimal decimalPos
    obtain ⟨p0, p1, p2, p3, -, -, -, -, hrun⟩ :=
      displayFourDigitNumber_of_nonneg number showDecimal decimalPos h
    rw [hrun]
    rfl

/-- Instance of C10 amended at 9959. -/
theorem individualDigits_in_range_witness :
    (0 : Int) ≤ 9959
    ∧ (∀ d ∈ individualDigits 9959,
      0 ≤ d ∧ d ≤ 9 ∧ d.toNat < segmentPatterns.length
        ∧ (arrayAt segmentPatterns d).isSome = true) :=
  ⟨by decide, (individualDigits_in_range 9959 (by decide)).1⟩

/-! ## The time display -/

theorem timeValue_eq (st : State)
    (hs0 : 0 ≤ st.currentSeconds) (hs1 : st.currentSeconds ≤ 59)
    (hm0 : 0 ≤ st.currentMinutes) (hm1 : st.currentMinutes ≤ 99) :
    timeValue st = st.currentMinutes * 100 + st.currentSeconds := by
  unfold timeValue wrapInt32
  omega

/-- C11: for seconds in 0..59 and minutes in 0..99 the value rendered in time
mode is minutes*100 + seconds, lies in 0..9959, and its four digits, left to
right, are minutes div 10, minutes mod 10, seconds div 10, seconds mod 10;
every table read for them is in bounds and the render has a result. -/
theorem timeValue_digits (st : State)
    (hs0 : 0 ≤ st.currentSeconds) (hs1 : st.currentSeconds ≤ 59)
    (hm0 : 0 ≤ st.currentMinutes) (hm1 : st.currentMinutes ≤ 99) :
    timeValue st = st.currentMinutes * 100 + st.currentSeconds
    ∧ (0 ≤ timeValue st ∧ timeValue st ≤ 9959)
    ∧ individualDigits (timeValue st)
        = [st.currentMinutes / 10, st.currentMinutes % 10,
           st.currentSeconds / 10, st.currentSeconds % 10]
    ∧ (∀ d ∈ individualDigits (timeValue st),
        d.toNat < segmentPatterns.length ∧ (arrayAt segmentPatterns d).isSome = true)
    ∧ (displayFourDigitNumber (timeValue st) false (-1)).isSome = true := by
  have hv := timeValue_eq st hs0 hs1 hm0 hm1
  have hnn : 0 ≤ timeValue st := by rw [hv]; omega
  have hdig : individualDigits (timeValue st)
      = [st.currentMinutes / 10, st.currentMinutes % 10,
         st.currentSeconds / 10, st.currentSeconds % 10] := by
    rw [individualDigits_of_nonneg _ hnn, hv]
    have e0 : (st.currentMinutes * 100 + st.currentSeconds) / 1000 % 10
        = st.currentMinutes / 10 := by omega
    have e1 : (st.currentMinutes * 100 + st.currentSeconds) / 100 % 10
        = st.currentMinutes % 10 := by omega
    have e2 : (st.currentMinutes * 100 + st.currentSeconds) / 10 % 10
        = st.currentSeconds / 10 := by omega
    have e3 : (st.currentMinutes * 100 + st.currentSeconds) % 10
        = st.currentSeconds % 10 := by omega
    rw [e0, e1, e2, e3]
  refine ⟨hv, ⟨hnn, by rw [hv]; omega⟩, hdig, ?_, ?_⟩
  · intro d hd
    rw [hdig] at hd
    have hrange : 0 ≤ d ∧ d ≤ 9 := by
      simp only [List.mem_cons, List.mem_singleton, List.not_mem_nil, or_false] at hd
      rcases hd with rfl | rfl | rfl | rfl <;> omega
    obtain ⟨p, hp, -⟩ := segmentPatterns_at d hrange.1 hrange.2
    refine ⟨?_, by rw [hp]; rfl⟩
    show d.toNat < 10
    omega
  · obtain ⟨p0, p1, p2, p3, -, -, -, -, hrun⟩ :=
      displayFourDigitNumber_of_nonneg (timeValue st) false (-1) hnn
    rw [hrun]
    rfl

/-- Instance of C11 at 12 minutes 34 seconds. -/
theorem timeValue_digits_witness :
    timeValue (State.mk 34 12 1 2) = 12 * 100 + 34
    ∧ individualDigits (timeValue (State.mk 34 12 1 2)) = [12 / 10, 12 % 10, 34 / 10, 34 % 10] :=
  ⟨(timeValue_digits ⟨34, 12, 1, 2⟩ (by decide) (by decide) (by decide) (by decide)).1,
   (timeValue_digits ⟨34, 12, 1, 2⟩ (by decide) (by decide) (by decide) (by decide)).2.2.1⟩

/-! ## The voltage display -/

/-- C12, as stated, fails: at the scaled voltage 245 the byte written first,
with select mask 0x01, is the plain pattern of digit 0 with bit 7 set, and the
byte with bit 7 cleared is the second one, written with select mask 0x02. -/
theorem displayVoltage_point_not_leftmost :
    displayVoltage 245 = some (frameTrace [0xC0, 0x24, 0x99, 0x92])
    ∧ displayVoltage 245
        = some (writeAndDwell 0xC0 0x01 ++ writeAndDwell 0x24 0x02 ++ writeAndDwell 0x99 0x04
            ++ writeAndDwell 0x92 0x08)
    ∧ digitSegments (individualDigits 245) true 1 0 = some 0xC0
    ∧ digitSegments (individualDigits 245) true 1 1 = some 0x24
    ∧ (0xC0 : Nat).testBit 7 = true
    ∧ (0x24 : Nat).testBit 7 = false
    ∧ ¬ (∀ segs : List Nat, displayVoltage 245 = some (frameTrace segs) →
          (segs.getD 0 0).testBit 7 = false) := by
  refine ⟨rfl, rfl, rfl, rfl, by decide, by decide, ?_⟩
  intro hall
  exact absurd (hall [0xC0, 0x24, 0x99, 0x92] rfl) (by decide)

/-- C12 amended: for every scaled voltage in 0..330 the call
`displayFourDigitNumber(scaledVoltage, true, 1)` clears bit 7 in the byte
written at digit index 1, the second position from the left, selected by mask
0x02, and in no other byte; the first position shows the hundreds digit of the
four-digit value, which is 0 in this range. -/
theorem displayVoltage_point_at_index_one (scaledVoltage : Int)
    (h0 : 0 ≤ scaledVoltage) (h1 : scaledVoltage ≤ 330) :
    ∃ segs : List Nat,
      segs.length = 4
      ∧ displayVoltage scaledVoltage = some (frameTrace segs)
      ∧ (∀ i : Nat, i < 4 → ((segs.getD i 0).testBit 7 = false ↔ i = 1))
      ∧ digitSelect.get? 1 = some 0x02
      ∧ segs.getD 0 0 = 0xC0 := by
  obtain ⟨p0, hp0, h70, hc0, hl0⟩ :=
    segmentPatterns_at (scaledVoltage / 1000 % 10) (by omega) (by omega)
  obtain ⟨p1, hp1, h71, hc1, hl1⟩ :=
    segmentPatterns_at (scaledVoltage / 100 % 10) (by omega) (by omega)
  obtain ⟨p2, hp2, h72, hc2, hl2⟩ :=
    segmentPatterns_at (scaledVoltage / 10 % 10) (by omega) (by omega)
  obtain ⟨p3, hp3, h73, hc3, hl3⟩ :=
    segmentPatterns_at (scaledVoltage % 10) (by omega) (by omega)
  have hzero : scaledVoltage / 1000 % 10 = 0 := by omega
  have hp0v : p0 = 0xC0 := by
    rw [hzero] at hp0
    exact (Option.some.inj hp0).symm
  refine ⟨[p0, toUint8 (p1 &&& intNot 0x80), p2, p3], rfl, ?_, ?_, rfl, hp0v⟩
  · unfold displayVoltage
    rw [displayFourDigitNumber_of_patterns scaledVoltage true 1 h0 p0 p1 p2 p3 hp0 hp1 hp2 hp3]
    rfl
  · intro i hi
    interval_cases i
    · constructor
      · intro hf
        have hb : p0.testBit 7 = false := hf
        rw [h70] at hb
        exact Bool.noConfusion hb
      · intro hi
        omega
    · exact ⟨fun _ => rfl, fun _ => hc1⟩
    · constructor
      · intro hf
        have hb : p2.testBit 7 = false := hf
        rw [h72] at hb
        exact Bool.noConfusion hb
      · intro hi
        omega
    · constructor
      · intro hf
        have hb : p3.testBit 7 = false := hf
        rw [h73] at hb
        exact Bool.noConfusion hb
      · intro hi
        omega

/-- Instance of C12 amended at the scaled voltage 245. -/
theorem displayVoltage_point_at_index_one_witness :
    ((0 : Int) ≤ 245 ∧ (245 : Int) ≤ 330)
    ∧ ∃ segs : List Nat,
      segs.length = 4
      ∧ displayVoltage 245 = some (frameTrace segs)
      ∧ (∀ i : Nat, i < 4 → ((segs.getD i 0).testBit 7 = false ↔ i = 1))
      ∧ digitSelect.get? 1 = some 0x02
      ∧ segs.getD 0 0 = 0xC0 :=
  ⟨⟨by decide, by decide⟩, displayVoltage_point_at_index_one 245 (by decide) (by decide)⟩

/-! ## The voltage range -/

theorem mainVoltageUpdate_minimum (st : State) (v : ℚ) :
    (mainVoltageUpdate st v).minimumVoltage = min st.minimumVoltage v := by
  unfold mainVoltageUpdate
  by_cases h : v < st.minimumVoltage
  · simp only [if_pos h]
    rw [min_eq_right (le_of_lt h)]
    split <;> rfl
  · simp only [if_neg h]
    rw [min_eq_left (not_lt.1 h)]
    split <;> rfl

theorem mainVoltageUpdate_maximum (st : State) (v : ℚ) :
    (mainVoltageUpdate st v).maximumVoltage = max st.maximumVoltage v := by
  unfold mainVoltageUpdate
  by_cases h : v < st.minimumVoltage
  · simp only [if_pos h]
    by_cases h2 : v > st.maximumVoltage
    · rw [if_pos h2, max_eq_right (le_of_lt h2)]
    · rw [if_neg h2, max_eq_left (not_lt.1 h2)]
  · simp only [if_neg h]
    by_cases h2 : v > st.maximumVoltage
    · rw [if_pos h2, max_eq_right (le_of_lt h2)]
    · rw [if_neg h2, max_eq_left (not_lt.1 h2)]

theorem observeAll_cons (st : State) (x : ℚ) (rest : List ℚ) :
    observeAll st (x :: rest) = observeAll (mainVoltageUpdate st x) rest := rfl

theorem observeAll_minimum (samples : List ℚ) :
    ∀ st : State,
      ((observeAll st samples).minimumVoltage = st.minimumVoltage
        ∨ (observeAll st samples).minimumVoltage ∈ samples)
      ∧ (observeAll st samples).minimumVoltage ≤ st.minimumVoltage
      ∧ ∀ v ∈ samples, (observeAll st samples).minimumVoltage ≤ v := by
  induction samples with
  | nil => intro st; exact ⟨Or.inl rfl, le_refl _, fun v hv => absurd hv (List.not_mem_nil v)⟩
  | cons x rest ih =>
    intro st
    obtain ⟨hmem, hle, hall⟩ := ih (mainVoltageUpdate st x)
    rw [mainVoltageUpdate_minimum] at hmem hle
    rw [observeAll_cons]
    refine ⟨?_, le_trans hle (min_le_left _ _), ?_⟩
    · rcases hmem with h | h
      · rcases min_choice st.minimumVoltage x with hc | hc
        · exact Or.inl (h.trans hc)
        · exact Or.inr (by rw [h, hc]; exact List.mem_cons_self _ _)
      · exact Or.inr (List.mem_cons_of_mem _ h)
    · intro v hv
      rcases List.mem_cons.1 hv with rfl | hv
      · exact le_trans hle (min_le_right _ _)
      · exact hall v hv

theorem observeAll_maximum (samples : List ℚ) :
    ∀ st : State,
      ((observeAll st samples).maximumVoltage = st.maximumVoltage
        ∨ (observeAll st samples).maximumVoltage ∈ samples)
      ∧ st.maximumVoltage ≤ (observeAll st samples).maximumVoltage
      ∧ ∀ v ∈ samples, v ≤ (observeAll st samples).maximumVoltage := by
  induction samples with
  | nil => intro st; exact ⟨Or.inl rfl, le_refl _, fun v hv => absurd hv (List.not_mem_nil v)⟩
  | cons x rest ih =>
    intro st
    obtain ⟨hmem, hle, hall⟩ := ih (mainVoltageUpdate st x)
    rw [mainVoltageUpdate_maximum] at hmem hle
    rw [observeAll_cons]
    refine ⟨?_, le_trans (le_max_left _ _) hle, ?_⟩
    · rcases hmem with h | h
      · rcases max_choice st.maximumVoltage x with hc | hc
        · exact Or.inl (h.trans hc)
        · exact Or.inr (by rw [h, hc]; exact List.mem_cons_self _ _)
      · exact Or.inr (List.mem_cons_of_mem _ h)
    · intro v hv
      rcases List.mem_cons.1 hv with rfl | hv
      · exact le_trans (le_max_right _ _) hle
      · exact hall v hv

theorem observeAll_extremes (samples : List ℚ) (hne : samples ≠ [])
    (hr : ∀ v ∈ samples, 0 ≤ v ∧ v ≤ 33 / 10) :
    ((observeAll initialState samples).minimumVoltage ∈ samples
      ∧ ∀ v ∈ samples, (observeAll initialState samples).minimumVoltage ≤ v)
    ∧ ((observeAll initialState samples).maximumVoltage ∈ samples
      ∧ ∀ v ∈ samples, v ≤ (observeAll initialState samples).maximumVoltage) := by
  obtain ⟨x, hx⟩ := List.exists_mem_of_ne_nil samples hne
  obtain ⟨hmin, -, hminall⟩ := observeAll_minimum samples initialState
  obtain ⟨hmax, -, hmaxall⟩ := observeAll_maximum samples initialState
  refine ⟨⟨?_, hminall⟩, ⟨?_, hmaxall⟩⟩
  · rcases hmin with h | h
    · have h1 : (observeAll initialState samples).minimumVoltage ≤ x := hminall x hx
      have h2 : x ≤ 33 / 10 := (hr x hx).2
      have h3 : initialState.minimumVoltage = 33 / 10 := rfl
      have hxe : x = (observeAll initialState samples).minimumVoltage :=
        le_antisymm (by rw [h, h3]; exact h2) h1
      rw [← hxe]
      exact hx
    · exact h
  · rcases hmax with h | h
    · have h1 : x ≤ (observeAll initialState samples).maximumVoltage := hmaxall x hx
      have h2 : 0 ≤ x := (hr x hx).1
      have h3 : initialState.maximumVoltage = 0 := rfl
      have hxe : x = (observeAll initialState samples).maximumVoltage :=
        le_antisymm h1 (by rw [h, h3]; exact h2)
      rw [← hxe]
      exact hx
    · exact h

/-- C13: for a non-empty sequence of samples in [0, 3.3], the min/max update of
the main loop applied to each sample in turn from minimum = 3.3, maximum = 0
ends with minimum = the least sample and maximum = the greatest sample; every
permutation of the sequence gives the same pair; the samples 1.5, 0.5, 2.0 in
any order give minimum 0.5 and maximum 2.0. -/
theorem observeAll_least_greatest (samples : List ℚ) (hne : samples ≠ [])
    (hr : ∀ v ∈ samples, 0 ≤ v ∧ v ≤ 33 / 10) :
    ((observeAll initialState samples).minimumVoltage ∈ samples
      ∧ ∀ v ∈ samples, (observeAll initialState samples).minimumVoltage ≤ v)
    ∧ ((observeAll initialState samples).maximumVoltage ∈ samples
      ∧ ∀ v ∈ samples, v ≤ (observeAll initialState samples).maximumVoltage)
    ∧ (∀ permuted : List ℚ, permuted.Perm samples →
        (observeAll initialState permuted).minimumVoltage
            = (observeAll initialState samples).minimumVoltage
        ∧ (observeAll initialState permuted).maximumVoltage
            = (observeAll initialState samples).maximumVoltage)
    ∧ (∀ order : List ℚ, order.Perm [3 / 2, 1 / 2, 2] →
        (observeAll initialState order).minimumVoltage = 1 / 2
        ∧ (observeAll initialState order).maximumVoltage = 2) := by
  have hperm : ∀ l1 l2 : List ℚ, l1 ≠ [] → (∀ v ∈ l2, 0 ≤ v ∧ v ≤ 33 / 10) → l1.Perm l2 →
      (observeAll initialState l1).minimumVoltage = (observeAll initialState l2).minimumVoltage
      ∧ (observeAll initialState l1).maximumVoltage
          = (observeAll initialState l2).maximumVoltage := by
    intro l1 l2 h1 hr2 hp
    have h2 : l2 ≠ [] := fun hnil => h1 (List.Perm.eq_nil (hnil ▸ hp))
    have hr1 : ∀ v ∈ l1, 0 ≤ v ∧ v ≤ 33 / 10 := fun v hv => hr2 v (hp.mem_iff.1 hv)
    obtain ⟨⟨ha, hb⟩, hc, hd⟩ := observeAll_extremes l1 h1 hr1
    obtain ⟨⟨ha2, hb2⟩, hc2, hd2⟩ := observeAll_extremes l2 h2 hr2
    exact ⟨le_antisymm (hb _ (hp.mem_iff.2 ha2)) (hb2 _ (hp.mem_iff.1 ha)),
      le_antisymm (hd2 _ (hp.mem_iff.1 hc)) (hd _ (hp.mem_iff.2 hc2))⟩
  obtain ⟨hmin, hmax⟩ := observeAll_extremes samples hne hr
  refine ⟨hmin, hmax, ?_, ?_⟩
  · intro permuted hp
    exact hperm permuted samples (fun hnil => hne (List.Perm.eq_nil (hnil ▸ hp.symm))) hr hp
  · intro order hp
    have hex : ∀ v ∈ ([3 / 2, 1 / 2, 2] : List ℚ), 0 ≤ v ∧ v ≤ 33 / 10 := by
      intro v hv
      simp only [List.mem_cons, List.mem_singleton, List.not_mem_nil, or_false] at hv
      rcases hv with rfl | rfl | rfl <;> norm_num
    have hord : order ≠ [] := by
      intro hnil
      rw [hnil] at hp
      exact absurd (List.Perm.nil_eq hp) (by simp)
    obtain ⟨e1, e2⟩ := hperm order [3 / 2, 1 / 2, 2] hord hex hp
    rw [e1, e2]
    constructor
    · simp [observeAll, mainVoltageUpdate, initialState]
      norm_num
    · simp [observeAll, mainVoltageUpdate, initialState]
      norm_num

theorem example_samples_in_range :
    ∀ v ∈ ([3 / 2, 1 / 2, 2] : List ℚ), 0 ≤ v ∧ v ≤ 33 / 10 := by
  intro v hv
  simp only [List.mem_cons, List.mem_singleton, List.not_mem_nil, or_false] at hv
  rcases hv with rfl | rfl | rfl <;> norm_num

/-- Instance of C13 at the samples 1.5, 0.5, 2.0. -/
theorem observeAll_least_greatest_witness :
    (([3 / 2, 1 / 2, 2] : List ℚ) ≠ [])
    ∧ (observeAll initialState [3 / 2, 1 / 2, 2]).minimumVoltage = 1 / 2
    ∧ (observeAll initialState [3 / 2, 1 / 2, 2]).maximumVoltage = 2 :=
  ⟨List.cons_ne_nil _ _,
    (observeAll_least_greatest [3 / 2, 1 / 2, 2] (List.cons_ne_nil _ _)
      example_samples_in_range).2.2.2 [3 / 2, 1 / 2, 2] (List.Perm.refl _)⟩

/-- C14: the initial minimum 3.3 is above the initial maximum 0; once the
min/max update has taken in at least one sample of [0, 3.3], minimum <= maximum
holds, and every further update keeps it; an update never raises the minimum
and never lowers the maximum. -/
theorem observeAll_minimum_le_maximum (samples : List ℚ) (hne : samples ≠ [])
    (hr : ∀ v ∈ samples, 0 ≤ v ∧ v ≤ 33 / 10) :
    initialState.maximumVoltage < initialState.minimumVoltage
    ∧ (observeAll initialState samples).minimumVoltage
        ≤ (observeAll initialState samples).maximumVoltage
    ∧ (∀ (st : State) (v : ℚ), st.minimumVoltage ≤ st.maximumVoltage →
        (mainVoltageUpdate st v).minimumVoltage ≤ (mainVoltageUpdate st v).maximumVoltage)
    ∧ (∀ (st : State) (v : ℚ),
        (mainVoltageUpdate st v).minimumVoltage ≤ st.minimumVoltage
        ∧ st.maximumVoltage ≤ (mainVoltageUpdate st v).maximumVoltage) := by
  refine ⟨?_, ?_, ?_, ?_⟩
  · show (0 : ℚ) < 33 / 10
    norm_num
  · obtain ⟨x, hx⟩ := List.exists_mem_of_ne_nil samples hne
    obtain ⟨⟨-, hmin⟩, -, hmax⟩ := observeAll_extremes samples hne hr
    exact le_trans (hmin x hx) (hmax x hx)
  · intro st v h
    rw [mainVoltageUpdate_minimum, mainVoltageUpdate_maximum]
    exact le_trans (min_le_left _ _) (le_trans h (le_max_left _ _))
  · intro st v
    rw [mainVoltageUpdate_minimum, mainVoltageUpdate_maximum]
    exact ⟨min_le_left _ _, le_max_left _ _⟩

/-- Instance of C14 at the samples 1.5, 0.5, 2.0. -/
theorem observeAll_minimum_le_maximum_witness :
    (([3 / 2, 1 / 2, 2] : List ℚ) ≠ [])
    ∧ (observeAll initialState [3 / 2, 1 / 2, 2]).minimumVoltage
        ≤ (observeAll initialState [3 / 2, 1 / 2, 2]).maximumVoltage :=
  ⟨List.cons_ne_nil _ _,
    (observeAll_minimum_le_maximum [3 / 2, 1 / 2, 2] (List.cons_ne_nil _ _)
      example_samples_in_range).2.1⟩

/-! ## The documented bit order -/

/-- C15, as stated, fails: with bit 0 = segment g up to bit 6 = segment a, the
pattern of digit 0 lights b, c, d, e, f, g (g lit, a dark) and the pattern of
digit 1 lights e and f, not the standard glyphs. -/
theorem documentedBit_not_standard :
    segmentPatterns.get? 0 = some 0xC0
    ∧ litSegments Segment.documentedBit 0xC0
        = [Segment.b, Segment.c, Segment.d, Segment.e, Segment.f, Segment.g]
    ∧ standardGlyph 0 = [Segment.a, Segment.b, Segment.c, Segment.d, Segment.e, Segment.f]
    ∧ ¬ (∀ seg : Segment,
          seg ∈ litSegments Segment.documentedBit 0xC0 ↔ seg ∈ standardGlyph 0)
    ∧ segmentPatterns.get? 1 = some 0xF9
    ∧ litSegments Segment.documentedBit 0xF9 = [Segment.e, Segment.f]
    ∧ ¬ (∀ seg : Segment,
          seg ∈ litSegments Segment.documentedBit 0xF9 ↔ seg ∈ standardGlyph 1) := by
  refine ⟨rfl, by decide, rfl, ?_, rfl, by decide, ?_⟩
  · intro hall
    exact absurd ((hall Segment.g).1 (by decide)) (by decide)
  · intro hall
    exact absurd ((hall Segment.b).2 (by decide)) (by decide)

/-- C15 amended: the table uses bit 7 = decimal point and bit 6 = segment g
down to bit 0 = segment a; under this assignment the segments whose bit is 0 in
`segmentPatterns[d]` are the standard glyph of `d`, for every digit 0..9, and
the decimal point bit is 1. -/
theorem segmentPatterns_lit_segments (d : Nat) (hd : d < 10) :
    ∃ p, segmentPatterns.get? d = some p
      ∧ litSegments Segment.bit p = standardGlyph d
      ∧ p.testBit 7 = true := by
  interval_cases d <;> exact ⟨_, rfl, by decide, by decide⟩

/-- Instance of C15 amended at the digit 1 (segments b and c). -/
theorem segmentPatterns_lit_segments_witness :
    1 < 10
    ∧ ∃ p, segmentPatterns.get? 1 = some p
      ∧ litSegments Segment.bit p = standardGlyph 1
      ∧ p.testBit 7 = true :=
  ⟨by decide, segmentPatterns_lit_segments 1 (by decide)⟩

/-! ## The range of the seconds counter -/

theorem runSteps_replicate_tick (st : State) (n : Nat) :
    runSteps st (List.replicate n TimeStep.tick) = ticks n st := by
  induction n with
  | zero => rfl
  | succ k ih =>
    rw [List.replicate_succ']
    unfold runSteps at ih ⊢
    rw [List.foldl_append, ih]
    rfl

/-- C16, as stated, fails: 59 ticks from the initial state give seconds = 59,
which is not below 59. -/
theorem seconds_reach_fifty_nine :
    (runSteps initialState (List.replicate 59 TimeStep.tick)).currentSeconds = 59
    ∧ ¬ ((runSteps initialState (List.replicate 59 TimeStep.tick)).currentSeconds < 59) := by
  have h : (runSteps initialState (List.replicate 59 TimeStep.tick)).currentSeconds = 59 := by
    rw [runSteps_replicate_tick, ticks_initialState]
    rfl
  exact ⟨h, by rw [h]; decide⟩

/-- C16 amended: in every state reached from the initial state (0, 0) by a
finite sequence of `incrementTime` and reset steps, seconds lies in the
half-open interval [0, 60), that is 0 <= seconds < 60. -/
theorem reachable_seconds_lt_sixty (steps : List TimeStep) :
    0 ≤ (runSteps initialState steps).currentSeconds
    ∧ (runSteps initialState steps).currentSeconds < 60 := by
  have h := runSteps_range steps initialState
    ⟨⟨le_refl _, show (0 : Int) ≤ 59 by decide⟩, le_refl _, show (0 : Int) ≤ 99 by decide⟩
  exact ⟨h.1.1, by omega⟩

/-! ## The encoding is unambiguous -/

theorem segmentPatterns_injective (d1 d2 : Nat) (h1 : d1 < 10) (h2 : d2 < 10)
    (f1 f2 : Bool) (p1 p2 : Nat)
    (hp1 : arrayAt segmentPatterns (d1 : Int) = some p1)
    (hp2 : arrayAt segmentPatterns (d2 : Int) = some p2)
    (heq : (if f1 then toUint8 (p1 &&& intNot 0x80) else p1)
      = (if f2 then toUint8 (p2 &&& intNot 0x80) else p2)) :
    d1 = d2 ∧ f1 = f2 := by
  interval_cases d1 <;> interval_cases d2 <;>
    obtain rfl := Option.some.inj hp1 <;> obtain rfl := Option.some.inj hp2 <;>
    cases f1 <;> cases f2 <;>
    first
      | exact ⟨rfl, rfl⟩
      | exact absurd heq (by decide)

/-- C19: the byte written for a digit of 0..9 and a decimal-point flag (the
table entry, with bit 7 cleared when the flag holds) determines both: equal
bytes come from equal digits and equal flags. -/
theorem digitSegments_injective (d1 d2 : Nat) (h1 : d1 < 10) (h2 : d2 < 10)
    (digits1 digits2 : List Int) (showDecimal1 showDecimal2 : Bool)
    (decimalPos1 decimalPos2 : Int) (i1 i2 : Nat)
    (hd1 : digits1.get? i1 = some (d1 : Int)) (hd2 : digits2.get? i2 = some (d2 : Int))
    (heq : digitSegments digits1 showDecimal1 decimalPos1 i1
      = digitSegments digits2 showDecimal2 decimalPos2 i2) :
    d1 = d2
    ∧ (showDecimal1 && ((i1 : Int) == decimalPos1))
        = (showDecimal2 && ((i2 : Int) == decimalPos2)) := by
  obtain ⟨p1, hp1, -⟩ := segmentPatterns_at (d1 : Int) (by omega) (by omega)
  obtain ⟨p2, hp2, -⟩ := segmentPatterns_at (d2 : Int) (by omega) (by omega)
  rw [digitSegments_eq digits1 showDecimal1 decimalPos1 i1 d1 p1 hd1 hp1,
    digitSegments_eq digits2 showDecimal2 decimalPos2 i2 d2 p2 hd2 hp2] at heq
  have hbytes := Option.some.inj heq
  exact segmentPatterns_injective d1 d2 h1 h2 _ _ p1 p2 hp1 hp2
    (by simpa using hbytes)

/-- Instance of C19: the bytes of digit 3 with and without decimal point. -/
theorem digitSegments_injective_witness :
    digitSegments [3] true 0 0 = digitSegments [3] true 0 0
    ∧ (3 = 3 ∧ (true && (((0 : Nat) : Int) == 0)) = (true && (((0 : Nat) : Int) == 0))) :=
  ⟨rfl, digitSegments_injective 3 3 (by decide) (by decide) [3] [3] true true 0 0 0 0
    rfl rfl rfl⟩

/-! ## Round trip through the receiver -/

theorem Receiver.run_append (width : Nat) (r : Receiver) (xs ys : List Event) :
    Receiver.run width r (xs ++ ys) = Receiver.run width (Receiver.run width r xs) ys := by
  unfold Receiver.run
  rw [List.foldl_append]

theorem Receiver.run_clockedBit (width : Nat) (r : Receiver) (b : Nat) (hc : r.clock = 0) :
    Receiver.run width r (clockedBit b)
      = { clock := 0, data := b, latch := r.latch,
          shift := (r.shift * 2 + b) % 2 ^ width, outputs := r.outputs } := by
  simp [Receiver.run, clockedBit, Receiver.step, hc]

theorem Receiver.run_clockedBits (width w : Nat) :
    ∀ (n : Nat) (r : Receiver), r.clock = 0 →
      (Receiver.run width r (clockedBits w n)).clock = 0
      ∧ (Receiver.run width r (clockedBits w n)).latch = r.latch
      ∧ (Receiver.run width r (clockedBits w n)).outputs = r.outputs
      ∧ (Receiver.run width r (clockedBits w n)).shift % 2 ^ width
          = (r.shift * 2 ^ n + w % 2 ^ n) % 2 ^ width
      ∧ (0 < n → (Receiver.run width r (clockedBits w n)).shift < 2 ^ width) := by
  intro n
  induction n with
  | zero =>
    intro r hc
    refine ⟨hc, rfl, rfl, ?_, fun h => absurd h (Nat.lt_irrefl 0)⟩
    show r.shift % 2 ^ width = (r.shift * 2 ^ 0 + w % 2 ^ 0) % 2 ^ width
    simp [Nat.mod_one]
  | succ k ih =>
    intro r hc
    have hsplit : clockedBits w (k + 1) = clockedBit (wordBit w k) ++ clockedBits w k := rfl
    rw [hsplit, Receiver.run_append, Receiver.run_clockedBit width r _ hc]
    obtain ⟨h1, h2, h3, h4, h5⟩ := ih
      { clock := 0, data := wordBit w k, latch := r.latch,
        shift := (r.shift * 2 + wordBit w k) % 2 ^ width, outputs := r.outputs } rfl
    refine ⟨h1, h2, h3, ?_, ?_⟩
    · rw [h4]
      have hmod : w % 2 ^ (k + 1) = w % 2 ^ k + 2 ^ k * wordBit w k := by
        unfold wordBit
        exact Nat.mod_pow_succ
      have hcong : (r.shift * 2 + wordBit w k) % 2 ^ width * 2 ^ k + w % 2 ^ k
          ≡ (r.shift * 2 + wordBit w k) * 2 ^ k + w % 2 ^ k [MOD 2 ^ width] :=
        Nat.ModEq.add_right _ (Nat.ModEq.mul_right _ (Nat.mod_modEq _ _))
      show _ % 2 ^ width = _ % 2 ^ width
      rw [hcong, hmod, Nat.pow_succ]
      congr 1
      ring
    · intro _
      rcases Nat.eq_zero_or_pos k with hk | hk
      · subst hk
        show (r.shift * 2 + wordBit w 0) % 2 ^ width < 2 ^ width
        exact Nat.mod_lt _ (Nat.pos_of_ne_zero (by positivity))
      · exact h5 hk

theorem Receiver.run_latch_low (width : Nat) (r : Receiver) :
    Receiver.run width r [Event.latchPin 0] = { r with latch := 0 } := by
  simp [Receiver.run, Receiver.step]

theorem Receiver.run_latch_high (width : Nat) (r : Receiver) (hl : r.latch = 0) :
    Receiver.run width r [Event.latchPin 1] = { r with latch := 1, outputs := r.shift } := by
  simp [Receiver.run, Receiver.step, hl]

/-- C18: a receiver that shifts left and takes the data level on each rising
clock edge, starting with the clock low and any register content, holds
exactly `value` in its 8-bit shift stage after `shiftOutByte value`; with a
16-bit stage it holds `segments*256 + digit` when `updateShiftRegister` raises
the latch, which copies that word to the outputs; the clock is left low. -/
theorem shift_register_round_trip (value segments digit : Nat)
    (hv : value < 256) (hs : segments < 256) (hd : digit < 256)
    (r : Receiver) (hc : r.clock = 0) :
    ((Receiver.run 8 r (shiftOutByte value)).shift = value
      ∧ (Receiver.run 8 r (shiftOutByte value)).clock = 0)
    ∧ ((Receiver.run 16 r (updateShiftRegister segments digit)).shift = segments * 256 + digit
      ∧ (Receiver.run 16 r (updateShiftRegister segments digit)).outputs
          = segments * 256 + digit
      ∧ (Receiver.run 16 r (updateShiftRegister segments digit)).latch = 1
      ∧ (Receiver.run 16 r (updateShiftRegister segments digit)).clock = 0) := by
  constructor
  · unfold shiftOutByte
    rw [shiftOutLoop_eq_clockedBits]
    obtain ⟨h1, -, -, h4, h5⟩ := Receiver.run_clockedBits 8 value 8 r hc
    have h5 := h5 (by decide)
    norm_num at h4 h5
    exact ⟨by omega, h1⟩
  · rw [updateShiftRegister_eq segments digit hd, Receiver.run_append, Receiver.run_append,
      Receiver.run_latch_low]
    obtain ⟨h1, h2, -, h4, h5⟩ :=
      Receiver.run_clockedBits 16 (segments * 256 + digit) 16 { r with latch := 0 } hc
    have h5 := h5 (by decide)
    rw [Receiver.run_latch_high 16 _ h2]
    norm_num at h4 h5
    have hword : (Receiver.run 16 { r with latch := 0 }
        (clockedBits (segments * 256 + digit) 16)).shift = segments * 256 + digit := by
      omega
    have key : ∀ (R : Receiver) (word : Nat), R.shift = word → R.clock = 0 →
        ({ R with latch := 1, outputs := R.shift } : Receiver).shift = word
        ∧ ({ R with latch := 1, outputs := R.shift } : Receiver).outputs = word
        ∧ ({ R with latch := 1, outputs := R.shift } : Receiver).latch = 1
        ∧ ({ R with latch := 1, outputs := R.shift } : Receiver).clock = 0 :=
      fun R word hw hcl => ⟨hw, hw, rfl, hcl⟩
    exact key _ _ hword h1

/-- Instance of C18 at the bytes 0b10110100 and 0b00000010 and a receiver
holding 0xFFFF. -/
theorem shift_register_round_trip_witness :
    (Receiver.run 8 ⟨0, 1, 1, 0xFFFF, 0xFFFF⟩ (shiftOutByte 0xB4)).shift = 0xB4
    ∧ (Receiver.run 16 ⟨0, 1, 1, 0xFFFF, 0xFFFF⟩ (updateShiftRegister 0xB4 0x02)).outputs
        = 0xB4 * 256 + 0x02 :=
  ⟨(shift_register_round_trip 0xB4 0xB4 0x02 (by decide) (by decide) (by decide)
      ⟨0, 1, 1, 0xFFFF, 0xFFFF⟩ rfl).1.1,
   (shift_register_round_trip 0xB4 0xB4 0x02 (by decide) (by decide) (by decide)
      ⟨0, 1, 1, 0xFFFF, 0xFFFF⟩ rfl).2.2.1⟩

/-! ## Lock-free sharing of the time counters -/

theorem runAccesses_append (st : State) (xs ys : List Access) :
    runAccesses st (xs ++ ys) = runAccesses (runAccesses st xs) ys := by
  unfold runAccesses
  rw [List.foldl_append]

theorem runAccesses_snoc (st : State) (accs : List Access) (a : Access) :
    runAccesses st (accs ++ [a]) = applyAccess (runAccesses st accs) a := by
  rw [runAccesses_append]
  rfl

theorem runAccesses_mem_statesHeld (accs : List Access) :
    ∀ st : State, runAccesses st accs ∈ statesHeld st accs := by
  induction accs with
  | nil => intro st; exact List.mem_singleton.2 rfl
  | cons x rest ih =>
    intro st
    exact List.mem_cons_of_mem _ (ih (applyAccess st x))

theorem applyAccess_tick_lt (st : State) (h0 : 0 ≤ st.currentSeconds)
    (h1 : st.currentSeconds < 59) :
    (applyAccess st Access.tick).currentSeconds = st.currentSeconds + 1
    ∧ (applyAccess st Access.tick).currentMinutes = st.currentMinutes := by
  show (incrementTime st).currentSeconds = _ ∧ (incrementTime st).currentMinutes = _
  rw [incrementTime_lt st h0 h1]
  exact ⟨rfl, rfl⟩

theorem applyAccess_tick_eq (st : State) (h0 : st.currentSeconds = 59)
    (hm0 : 0 ≤ st.currentMinutes) (hm1 : st.currentMinutes ≤ 99) :
    (applyAccess st Access.tick).currentSeconds = 0
    ∧ (applyAccess st Access.tick).currentMinutes = (st.currentMinutes + 1) % 100 := by
  show (incrementTime st).currentSeconds = _ ∧ (incrementTime st).currentMinutes = _
  rw [incrementTime_eq st h0 hm0 hm1]
  exact ⟨rfl, rfl⟩

theorem applyAccess_range (st : State) (a : Access)
    (h : (0 ≤ st.currentSeconds ∧ st.currentSeconds ≤ 59)
      ∧ (0 ≤ st.currentMinutes ∧ st.currentMinutes ≤ 99)) :
    (0 ≤ (applyAccess st a).currentSeconds ∧ (applyAccess st a).currentSeconds ≤ 59)
    ∧ (0 ≤ (applyAccess st a).currentMinutes ∧ (applyAccess st a).currentMinutes ≤ 99) := by
  obtain ⟨⟨hs0, hs1⟩, hm0, hm1⟩ := h
  cases a with
  | storeSeconds => exact ⟨⟨le_refl _, show (0 : Int) ≤ 59 by decide⟩, hm0, hm1⟩
  | storeMinutes => exact ⟨⟨hs0, hs1⟩, le_refl _, show (0 : Int) ≤ 99 by decide⟩
  | tick =>
    have hsplit : st.currentSeconds < 59 ∨ st.currentSeconds = 59 := by omega
    rcases hsplit with h | h
    · obtain ⟨e1, e2⟩ := applyAccess_tick_lt st hs0 h
      rw [e1, e2]
      omega
    · obtain ⟨e1, e2⟩ := applyAccess_tick_eq st h hm0 hm1
      rw [e1, e2]
      omega

theorem statesHeld_range (accs : List Access) :
    ∀ st : State,
      ((0 ≤ st.currentSeconds ∧ st.currentSeconds ≤ 59)
        ∧ (0 ≤ st.currentMinutes ∧ st.currentMinutes ≤ 99)) →
      ∀ held ∈ statesHeld st accs,
        (0 ≤ held.currentSeconds ∧ held.currentSeconds ≤ 59)
        ∧ (0 ≤ held.currentMinutes ∧ held.currentMinutes ≤ 99) := by
  induction accs with
  | nil =>
    intro st h held hmem
    rw [List.mem_singleton.1 hmem]
    exact h
  | cons x rest ih =>
    intro st h held hmem
    rcases List.mem_cons.1 hmem with rfl | hmem
    · exact h
    · exact ih (applyAccess st x) (applyAccess_range st x h) held hmem

theorem initialState_range :
    (0 ≤ initialState.currentSeconds ∧ initialState.currentSeconds ≤ 59)
    ∧ (0 ≤ initialState.currentMinutes ∧ initialState.currentMinutes ≤ 99) :=
  ⟨⟨le_refl _, show (0 : Int) ≤ 59 by decide⟩, le_refl _, show (0 : Int) ≤ 99 by decide⟩

theorem runAccesses_range (st : State) (accs : List Access)
    (h : (0 ≤ st.currentSeconds ∧ st.currentSeconds ≤ 59)
      ∧ (0 ≤ st.currentMinutes ∧ st.currentMinutes ≤ 99)) :
    (0 ≤ (runAccesses st accs).currentSeconds ∧ (runAccesses st accs).currentSeconds ≤ 59)
    ∧ (0 ≤ (runAccesses st accs).currentMinutes
      ∧ (runAccesses st accs).currentMinutes ≤ 99) :=
  statesHeld_range accs st h _ (runAccesses_mem_statesHeld accs st)

theorem timeValueRead_eq (atFirst atSecond : State)
    (h1 : 0 ≤ atFirst.currentMinutes ∧ atFirst.currentMinutes ≤ 99)
    (h2 : 0 ≤ atSecond.currentSeconds ∧ atSecond.currentSeconds ≤ 59) :
    timeValueRead atFirst atSecond
      = atFirst.currentMinutes * 100 + atSecond.currentSeconds := by
  unfold timeValueRead wrapInt32
  omega

theorem runAccesses_replicate_tick (st : State) (n : Nat) :
    runAccesses st (List.replicate n Access.tick) = ticks n st := by
  induction n with
  | zero => rfl
  | succ k ih =>
    rw [List.replicate_succ', runAccesses_snoc, ih]
    rfl

/-- C17, as stated, fails for the two loads of line 144 in their order. After
59 ticks the counters hold 0:59; `currentMinutes` is loaded there (0), one
tick runs, and `currentSeconds` is loaded at 1:00 (0). The value passed to the
display is 0, while the only states held from the first load to the second
are 0:59 and 1:00, with values 59 and 100. -/
theorem torn_time_read :
    (runAccesses initialState (List.replicate 59 Access.tick)).currentSeconds = 59
    ∧ (runAccesses initialState (List.replicate 59 Access.tick)).currentMinutes = 0
    ∧ (runAccesses (runAccesses initialState (List.replicate 59 Access.tick))
        [Access.tick]).currentSeconds = 0
    ∧ (runAccesses (runAccesses initialState (List.replicate 59 Access.tick))
        [Access.tick]).currentMinutes = 1
    ∧ statesHeld (runAccesses initialState (List.replicate 59 Access.tick)) [Access.tick]
        = [ runAccesses initialState (List.replicate 59 Access.tick),
            runAccesses (runAccesses initialState (List.replicate 59 Access.tick))
              [Access.tick] ]
    ∧ timeValueRead (runAccesses initialState (List.replicate 59 Access.tick))
        (runAccesses (runAccesses initialState (List.replicate 59 Access.tick))
          [Access.tick]) = 0
    ∧ timeValue (runAccesses initialState (List.replicate 59 Access.tick)) = 59
    ∧ timeValue (runAccesses (runAccesses initialState (List.replicate 59 Access.tick))
        [Access.tick]) = 100
    ∧ ¬ (∃ held ∈ statesHeld (runAccesses initialState (List.replicate 59 Access.tick))
            [Access.tick],
          timeValueRead (runAccesses initialState (List.replicate 59 Access.tick))
            (runAccesses (runAccesses initialState (List.replicate 59 Access.tick))
              [Access.tick])
          = held.currentMinutes * 100 + held.currentSeconds) := by
  have e59 : runAccesses initialState (List.replicate 59 Access.tick)
      = { initialState with currentSeconds := 59, currentMinutes := 0 } := by
    rw [runAccesses_replicate_tick, ticks_initialState]
    rfl
  rw [e59]
  refine ⟨rfl, rfl, by decide, by decide, rfl, by decide, by decide, by decide, ?_⟩
  rintro ⟨held, hmem, hheld⟩
  have hcases : held = { initialState with currentSeconds := 59, currentMinutes := 0 }
      ∨ held = runAccesses { initialState with currentSeconds := 59, currentMinutes := 0 }
          [Access.tick] := by
    have hm : held ∈ [ ({ initialState with currentSeconds := 59, currentMinutes := 0 } : State),
        runAccesses { initialState with currentSeconds := 59, currentMinutes := 0 }
          [Access.tick] ] := hmem
    simpa using hm
  rcases hcases with rfl | rfl
  · exact absurd hheld (by decide)
  · exact absurd hheld (by decide)

/-- C17 amended: with atomic accesses and any number of ticks between two
accesses of the main loop, the value passed to the display is
(minutes at the first load)*100 + (seconds at the second load); it lies in
0..9959 and its render is defined; whenever `currentMinutes` has the same
value at both loads, in particular when no tick runs between them, it is
minutes*100 + seconds of a single state held during the read, the one at the
second load; and the two stores of a reset, interleaved with ticks in any
way, leave seconds in 0..59 and minutes in 0..99. -/
theorem lock_free_time_read (pre : List Access) (k : Nat) :
    timeValueRead (runAccesses initialState pre)
        (runAccesses (runAccesses initialState pre) (List.replicate k Access.tick))
      = (runAccesses initialState pre).currentMinutes * 100
        + (runAccesses (runAccesses initialState pre)
            (List.replicate k Access.tick)).currentSeconds
    ∧ (0 ≤ timeValueRead (runAccesses initialState pre)
          (runAccesses (runAccesses initialState pre) (List.replicate k Access.tick))
      ∧ timeValueRead (runAccesses initialState pre)
          (runAccesses (runAccesses initialState pre) (List.replicate k Access.tick)) ≤ 9959)
    ∧ (displayFourDigitNumber
        (timeValueRead (runAccesses initialState pre)
          (runAccesses (runAccesses initialState pre) (List.replicate k Access.tick)))
        false (-1)).isSome = true
    ∧ ((runAccesses (runAccesses initialState pre)
          (List.replicate k Access.tick)).currentMinutes
        = (runAccesses initialState pre).currentMinutes →
      runAccesses (runAccesses initialState pre) (List.replicate k Access.tick)
        ∈ statesHeld (runAccesses initialState pre) (List.replicate k Access.tick)
      ∧ timeValueRead (runAccesses initialState pre)
          (runAccesses (runAccesses initialState pre) (List.replicate k Access.tick))
        = timeValue
            (runAccesses (runAccesses initialState pre) (List.replicate k Access.tick)))
    ∧ timeValueRead (runAccesses initialState pre) (runAccesses initialState pre)
        = timeValue (runAccesses initialState pre)
    ∧ ((0 ≤ (runAccesses initialState pre).currentSeconds
          ∧ (runAccesses initialState pre).currentSeconds ≤ 59)
        ∧ (0 ≤ (runAccesses initialState pre).currentMinutes
          ∧ (runAccesses initialState pre).currentMinutes ≤ 99))
    ∧ (∀ j : Nat,
        (0 ≤ (runAccesses (runAccesses initialState pre)
              ([Access.storeSeconds] ++ List.replicate j Access.tick
                ++ [Access.storeMinutes])).currentSeconds
          ∧ (runAccesses (runAccesses initialState pre)
              ([Access.storeSeconds] ++ List.replicate j Access.tick
                ++ [Access.storeMinutes])).currentSeconds ≤ 59)
        ∧ (runAccesses (runAccesses initialState pre)
              ([Access.storeSeconds] ++ List.replicate j Access.tick
                ++ [Access.storeMinutes])).currentMinutes = 0)
    ∧ (∀ st : State,
        runAccesses st [Access.storeSeconds, Access.storeMinutes] = mainReset st) := by
  have hr1 := runAccesses_range initialState pre initialState_range
  have hr2 := runAccesses_range (runAccesses initialState pre)
    (List.replicate k Access.tick) hr1
  have hv := timeValueRead_eq (runAccesses initialState pre)
    (runAccesses (runAccesses initialState pre) (List.replicate k Access.tick)) hr1.2 hr2.1
  have hnn : 0 ≤ timeValueRead (runAccesses initialState pre)
      (runAccesses (runAccesses initialState pre) (List.replicate k Access.tick)) := by
    rw [hv]; omega
  refine ⟨hv, ⟨hnn, by rw [hv]; omega⟩, ?_, ?_, ?_, hr1, ?_, fun st => rfl⟩
  · obtain ⟨p0, p1, p2, p3, -, -, -, -, hrun⟩ :=
      displayFourDigitNumber_of_nonneg _ false (-1) hnn
    rw [hrun]
    rfl
  · intro hsame
    refine ⟨runAccesses_mem_statesHeld _ _, ?_⟩
    rw [hv, timeValue_eq _ hr2.1.1 hr2.1.2 hr2.2.1 hr2.2.2, hsame]
  · rw [timeValueRead_eq _ _ hr1.2 hr1.1, timeValue_eq _ hr1.1.1 hr1.1.2 hr1.2.1 hr1.2.2]
  · intro j
    have hj := runAccesses_range (runAccesses initialState pre)
      ([Access.storeSeconds] ++ List.replicate j Access.tick) hr1
    rw [runAccesses_snoc]
    exact ⟨hj.1, rfl⟩

/-- Instance of C17 amended: after 5 ticks, with 3 ticks between the two
loads, the minutes agree at both loads and the value is that of the state at
the second load, 0:08. -/
theorem lock_free_time_read_witness :
    timeValueRead (runAccesses initialState (List.replicate 5 Access.tick))
        (runAccesses (runAccesses initialState (List.replicate 5 Access.tick))
          (List.replicate 3 Access.tick))
      = timeValue (runAccesses (runAccesses initialState (List.replicate 5 Access.tick))
          (List.replicate 3 Access.tick)) :=
  ((lock_free_time_read (List.replicate 5 Access.tick) 3).2.2.2.1 (by decide)).2

end SevenSeg
